import Mathlib

/-!
# astparser: declaration extraction over a Go syntax tree

A shallow embedding of `parser.go` and `core.go`.

* Go strings are modelled by Lean strings; `s[lo:hi]` slices by character, which is the
  byte slice whenever the characters cut off are ASCII (quotes and back-quotes are).
* A Go `error` value is an `Option String` (`none` is `nil`); a function returning
  `(T, error)` returns a pair, exactly as in Go, so that a value returned next to an
  error stays visible.
* A run-time panic is the `Except.error` branch of `Except Panic`.
* Pointers that may be `nil` are `Option`s; objects are modelled by their values.
* The external collaborators (`go/parser`, `go/format`, `fatih/structtag`) are the fields of
  `Env`; the general theorems hold for every `Env`.
-/

namespace astparser

/-! ## Run-time model -/

/-- The run-time panics the embedded code can raise. -/
inductive Panic where
  | indexOutOfRange
  | sliceBoundsOutOfRange
  | nilPointerDereference
deriving DecidableEq, Repr

/-- A Go `error` value: `none` is `nil`. -/
abbrev Err := Option String

deriving instance DecidableEq for Except

/-- The in-range result of the Go slice expression `s[lo:hi]`. -/
def slice (s : String) (lo hi : Nat) : String :=
  ⟨(s.data.drop lo).take (hi - lo)⟩

/-- The Go expression `s[1 : len(s)-1]`: it panics unless `1 ≤ len(s)-1`. -/
def sliceInner (s : String) : Except Panic String :=
  if 2 ≤ s.length then .ok (slice s 1 (s.length - 1)) else .error .sliceBoundsOutOfRange

/-- The function `strings.ToLower`, on the ASCII range. -/
def ToLower (s : String) : String :=
  ⟨s.data.map Char.toLower⟩

/-! ## Syntax tree (the part of `go/ast` the extractors can observe) -/

/-- The literal kinds of `go/token`. -/
inductive Token where
  | INT | FLOAT | IMAG | CHAR | STRING
deriving DecidableEq, Repr

/-- `token.Token.String` on the literal kinds. -/
def Token.String : Token → String
  | .INT => "INT"
  | .FLOAT => "FLOAT"
  | .IMAG => "IMAG"
  | .CHAR => "CHAR"
  | .STRING => "STRING"

/-- A comment group, represented by what `CommentGroup.Text()` returns for it. -/
structure CommentGroup where
  Text : String
deriving DecidableEq, Repr

/-- An import clause: `Name` is the alias (`.` and `_` included), `Path` the path literal
with its quotes. -/
structure ImportSpec where
  Doc : Option CommentGroup
  Name : Option String
  Path : String
  Comment : Option CommentGroup
deriving DecidableEq, Repr

mutual
/-- Expressions and type expressions. -/
inductive Expr where
  | Ident (Name : String)
  | BasicLit (Kind : Token) (Value : String)
  | StarExpr (X : Expr)
  | SelectorExpr (X : Expr) (Sel : String)
  | ArrayType (Len : Option Expr) (Elt : Expr)
  | MapType (Key Value : Expr)
  | StructType (Fields : Option FieldList)
  | InterfaceType (Methods : Option FieldList)
  | FuncType (Params : Option FieldList) (Results : Option FieldList)
  | FuncLit (Typ : Expr) (Body : List Stmt)
  | CallExpr (Fun : Expr) (Args : List Expr)
  | CompositeLit (Typ : Option Expr) (Elts : List Expr)
  | UnaryExpr (Op : String) (X : Expr)
  | KeyValueExpr (Key Value : Expr)
/-- One entry of a field list; `Tag` is the text of the tag literal, delimiters included. -/
inductive Field where
  | mk (Doc : Option CommentGroup) (Names : List String) (Typ : Expr) (Tag : Option String)
/-- A field, method or parameter list. -/
inductive FieldList where
  | mk (Lst : List Field)
/-- Statements. -/
inductive Stmt where
  | DeclStmt (Decl : GenDecl)
  | ExprStmt (X : Expr)
  | AssignStmt (Lhs Rhs : List Expr)
  | ReturnStmt (Results : List Expr)
  | BlockStmt (Lst : List Stmt)
/-- A constant or variable declaration entry. -/
inductive ValueSpec where
  | mk (Doc : Option CommentGroup) (Names : List String) (Typ : Option Expr) (Values : List Expr)
/-- A type declaration entry. -/
inductive TypeSpec where
  | mk (Doc : Option CommentGroup) (Name : String) (Typ : Option Expr)
/-- A declaration entry. -/
inductive Spec where
  | ImportSpec (s : ImportSpec)
  | ValueSpec (s : ValueSpec)
  | TypeSpec (s : TypeSpec)
/-- A declaration group (`import`, `const`, `type` or `var`), with the doc of the group itself. -/
inductive GenDecl where
  | mk (Doc : Option CommentGroup) (Specs : List Spec)
end

def Field.Doc : Field → Option CommentGroup
  | .mk d _ _ _ => d

def Field.Names : Field → List String
  | .mk _ n _ _ => n

def Field.Typ : Field → Expr
  | .mk _ _ t _ => t

def Field.Tag : Field → Option String
  | .mk _ _ _ t => t

def FieldList.Lst : FieldList → List Field
  | .mk l => l

def ValueSpec.Doc : ValueSpec → Option CommentGroup
  | .mk d _ _ _ => d

def ValueSpec.Names : ValueSpec → List String
  | .mk _ n _ _ => n

def ValueSpec.Typ : ValueSpec → Option Expr
  | .mk _ _ t _ => t

def ValueSpec.Values : ValueSpec → List Expr
  | .mk _ _ _ v => v

def TypeSpec.Doc : TypeSpec → Option CommentGroup
  | .mk d _ _ => d

def TypeSpec.Name : TypeSpec → String
  | .mk _ n _ => n

def TypeSpec.Typ : TypeSpec → Option Expr
  | .mk _ _ t => t

def GenDecl.Doc : GenDecl → Option CommentGroup
  | .mk d _ => d

def GenDecl.Specs : GenDecl → List Spec
  | .mk _ s => s

/-- A function declaration; `Body` is absent for a declaration without a body. -/
structure FuncDecl where
  Doc : Option CommentGroup
  Recv : Option FieldList
  Name : String
  Typ : Expr
  Body : Option (List Stmt)

/-- A top-level declaration. -/
inductive Decl where
  | GenDecl (d : GenDecl)
  | FuncDecl (d : FuncDecl)

/-- A parsed file. `Imports` lists the import clauses of the file, as `go/parser` does. -/
structure File where
  Doc : Option CommentGroup
  Name : String
  Decls : List Decl
  Imports : List ImportSpec

/-- The dynamic type of an `ast.Node` handed to a visitor; `nil` is the end-of-children call. -/
inductive Node where
  | nil
  | CommentGroup (n : CommentGroup)
  | Expr (n : Expr)
  | Field (n : Field)
  | FieldList (n : FieldList)
  | Stmt (n : Stmt)
  | ImportSpec (n : ImportSpec)
  | ValueSpec (n : ValueSpec)
  | TypeSpec (n : TypeSpec)
  | GenDecl (n : GenDecl)
  | FuncDecl (n : FuncDecl)
  | File (n : File)

/-! ## `ast.Inspect` -/

/-- A visitor function of `ast.Inspect` with its captured variables made explicit as a
state: it returns the new state and whether to descend. -/
abbrev Visitor (σ : Type) := Node → σ → Except Panic (σ × Bool)

/-- Sequencing of two traversal steps. -/
def andThen {σ : Type} (a b : σ → Except Panic σ) : σ → Except Panic σ :=
  fun s => match a s with
    | .error p => .error p
    | .ok s1 => b s1

/-- Package `ast`, `Walk` on one node: call the visitor; when it asks to descend, walk the
children and finish with the call on `nil`. -/
def visit {σ : Type} (f : Visitor σ) (n : Node) (children : σ → Except Panic σ) :
    σ → Except Panic σ :=
  fun s => match f n s with
    | .error p => .error p
    | .ok (s1, false) => .ok s1
    | .ok (s1, true) =>
      match children s1 with
      | .error p => .error p
      | .ok s2 =>
        match f .nil s2 with
        | .error p => .error p
        | .ok (s3, _) => .ok s3

/-- A node without children. -/
def leaf {σ : Type} (f : Visitor σ) (n : Node) : σ → Except Panic σ :=
  visit f n .ok

/-- Walk of an optional comment group. -/
def walkDoc {σ : Type} (f : Visitor σ) : Option CommentGroup → σ → Except Panic σ
  | none => .ok
  | some c => leaf f (.CommentGroup c)

/-- Walk of a list of identifiers. -/
def walkIdents {σ : Type} (f : Visitor σ) : List String → σ → Except Panic σ
  | [] => .ok
  | n :: ns => andThen (leaf f (.Expr (.Ident n))) (walkIdents f ns)

/-- Walk of an optional identifier. -/
def walkOptIdent {σ : Type} (f : Visitor σ) : Option String → σ → Except Panic σ
  | none => .ok
  | some n => leaf f (.Expr (.Ident n))

/-- Walk of an optional string literal (a field tag). -/
def walkOptLit {σ : Type} (f : Visitor σ) : Option String → σ → Except Panic σ
  | none => .ok
  | some v => leaf f (.Expr (.BasicLit .STRING v))

/-- Walk of an import clause: doc, name, path, comment. -/
def walkImportSpec {σ : Type} (f : Visitor σ) (s : ImportSpec) : σ → Except Panic σ :=
  visit f (.ImportSpec s)
    (andThen (walkDoc f s.Doc) (andThen (walkOptIdent f s.Name)
      (andThen (leaf f (.Expr (.BasicLit .STRING s.Path))) (walkDoc f s.Comment))))

mutual
/-- Walk of an expression, children in the order of `ast.Walk`. -/
def walkExpr {σ : Type} (f : Visitor σ) : Expr → σ → Except Panic σ
  | .Ident n => leaf f (.Expr (.Ident n))
  | .BasicLit k v => leaf f (.Expr (.BasicLit k v))
  | .StarExpr x => visit f (.Expr (.StarExpr x)) (walkExpr f x)
  | .SelectorExpr x sel =>
    visit f (.Expr (.SelectorExpr x sel)) (andThen (walkExpr f x) (leaf f (.Expr (.Ident sel))))
  | .ArrayType l e =>
    visit f (.Expr (.ArrayType l e)) (andThen (walkOptExpr f l) (walkExpr f e))
  | .MapType k v => visit f (.Expr (.MapType k v)) (andThen (walkExpr f k) (walkExpr f v))
  | .StructType fl => visit f (.Expr (.StructType fl)) (walkOptFieldList f fl)
  | .InterfaceType fl => visit f (.Expr (.InterfaceType fl)) (walkOptFieldList f fl)
  | .FuncType p r =>
    visit f (.Expr (.FuncType p r)) (andThen (walkOptFieldList f p) (walkOptFieldList f r))
  | .FuncLit t b =>
    visit f (.Expr (.FuncLit t b))
      (andThen (walkExpr f t) (visit f (.Stmt (.BlockStmt b)) (walkStmtList f b)))
  | .CallExpr fn args =>
    visit f (.Expr (.CallExpr fn args)) (andThen (walkExpr f fn) (walkExprList f args))
  | .CompositeLit t elts =>
    visit f (.Expr (.CompositeLit t elts)) (andThen (walkOptExpr f t) (walkExprList f elts))
  | .UnaryExpr op x => visit f (.Expr (.UnaryExpr op x)) (walkExpr f x)
  | .KeyValueExpr k v =>
    visit f (.Expr (.KeyValueExpr k v)) (andThen (walkExpr f k) (walkExpr f v))
/-- Walk of an optional expression. -/
def walkOptExpr {σ : Type} (f : Visitor σ) : Option Expr → σ → Except Panic σ
  | none => .ok
  | some e => walkExpr f e
/-- Walk of an expression list. -/
def walkExprList {σ : Type} (f : Visitor σ) : List Expr → σ → Except Panic σ
  | [] => .ok
  | e :: es => andThen (walkExpr f e) (walkExprList f es)
/-- Walk of a field: doc, names, type, tag. -/
def walkField {σ : Type} (f : Visitor σ) : Field → σ → Except Panic σ
  | .mk d ns t tag =>
    visit f (.Field (.mk d ns t tag))
      (andThen (walkDoc f d) (andThen (walkIdents f ns) (andThen (walkExpr f t) (walkOptLit f tag))))
/-- Walk of the fields of a list. -/
def walkFields {σ : Type} (f : Visitor σ) : List Field → σ → Except Panic σ
  | [] => .ok
  | x :: xs => andThen (walkField f x) (walkFields f xs)
/-- Walk of a field list. -/
def walkFieldList {σ : Type} (f : Visitor σ) : FieldList → σ → Except Panic σ
  | .mk l => visit f (.FieldList (.mk l)) (walkFields f l)
/-- Walk of an optional field list. -/
def walkOptFieldList {σ : Type} (f : Visitor σ) : Option FieldList → σ → Except Panic σ
  | none => .ok
  | some fl => walkFieldList f fl
/-- Walk of a statement. -/
def walkStmt {σ : Type} (f : Visitor σ) : Stmt → σ → Except Panic σ
  | .DeclStmt d => visit f (.Stmt (.DeclStmt d)) (walkGenDecl f d)
  | .ExprStmt x => visit f (.Stmt (.ExprStmt x)) (walkExpr f x)
  | .AssignStmt l r =>
    visit f (.Stmt (.AssignStmt l r)) (andThen (walkExprList f l) (walkExprList f r))
  | .ReturnStmt r => visit f (.Stmt (.ReturnStmt r)) (walkExprList f r)
  | .BlockStmt l => visit f (.Stmt (.BlockStmt l)) (walkStmtList f l)
/-- Walk of a statement list. -/
def walkStmtList {σ : Type} (f : Visitor σ) : List Stmt → σ → Except Panic σ
  | [] => .ok
  | x :: xs => andThen (walkStmt f x) (walkStmtList f xs)
/-- Walk of a constant or variable entry: doc, names, type, values. -/
def walkValueSpec {σ : Type} (f : Visitor σ) : ValueSpec → σ → Except Panic σ
  | .mk d ns t vs =>
    visit f (.ValueSpec (.mk d ns t vs))
      (andThen (walkDoc f d)
        (andThen (walkIdents f ns) (andThen (walkOptExpr f t) (walkExprList f vs))))
/-- Walk of a type entry: doc, name, type. -/
def walkTypeSpec {σ : Type} (f : Visitor σ) : TypeSpec → σ → Except Panic σ
  | .mk d n t =>
    visit f (.TypeSpec (.mk d n t))
      (andThen (walkDoc f d) (andThen (leaf f (.Expr (.Ident n))) (walkOptExpr f t)))
/-- Walk of a declaration entry. -/
def walkSpec {σ : Type} (f : Visitor σ) : Spec → σ → Except Panic σ
  | .ImportSpec s => walkImportSpec f s
  | .ValueSpec s => walkValueSpec f s
  | .TypeSpec s => walkTypeSpec f s
/-- Walk of the entries of a group. -/
def walkSpecs {σ : Type} (f : Visitor σ) : List Spec → σ → Except Panic σ
  | [] => .ok
  | x :: xs => andThen (walkSpec f x) (walkSpecs f xs)
/-- Walk of a declaration group: doc, entries. -/
def walkGenDecl {σ : Type} (f : Visitor σ) : GenDecl → σ → Except Panic σ
  | .mk d specs => visit f (.GenDecl (.mk d specs)) (andThen (walkDoc f d) (walkSpecs f specs))
end

/-- Walk of an optional function body. -/
def walkBody {σ : Type} (f : Visitor σ) : Option (List Stmt) → σ → Except Panic σ
  | none => .ok
  | some b => visit f (.Stmt (.BlockStmt b)) (walkStmtList f b)

/-- Walk of a function declaration: doc, receiver, name, type, body. -/
def walkFuncDecl {σ : Type} (f : Visitor σ) (d : FuncDecl) : σ → Except Panic σ :=
  visit f (.FuncDecl d)
    (andThen (walkDoc f d.Doc) (andThen (walkOptFieldList f d.Recv)
      (andThen (leaf f (.Expr (.Ident d.Name))) (andThen (walkExpr f d.Typ) (walkBody f d.Body)))))

/-- Walk of a top-level declaration. -/
def walkDecl {σ : Type} (f : Visitor σ) : Decl → σ → Except Panic σ
  | .GenDecl d => walkGenDecl f d
  | .FuncDecl d => walkFuncDecl f d

/-- Walk of the top-level declarations. -/
def walkDecls {σ : Type} (f : Visitor σ) : List Decl → σ → Except Panic σ
  | [] => .ok
  | x :: xs => andThen (walkDecl f x) (walkDecls f xs)

/-- The call `ast.Inspect(file, f)`: depth-first traversal of the file (doc, package name,
declarations), starting from state `s`. -/
def Inspect {σ : Type} (file : File) (f : Visitor σ) (s : σ) : Except Panic σ :=
  visit f (.File file)
    (andThen (walkDoc f file.Doc) (andThen (leaf f (.Expr (.Ident file.Name)))
      (walkDecls f file.Decls))) s

/-! ## Data model (`core.go`) and collaborators -/

/-- One key of a decoded annotation (`structtag.Tag`). -/
structure Tag where
  Key : String
  Name : String
  Options : List String
deriving DecidableEq, Repr

/-- Decoded annotation pairs (`structtag.Tags`). -/
structure Tags where
  tags : List Tag
deriving DecidableEq, Repr

/-- The external collaborators: front end (`parser.ParseFile`), source renderer
(`format.Node`), annotation codec (`structtag.Parse` and `(*Tags).String`). -/
structure Env where
  ParseFile : String → Except String File
  formatNode : Node → Except String String
  structtagParse : String → Option Tags × Err
  tagsString : Tags → String

/-- StructField go struct field. -/
structure StructField where
  Name : String
  Doc : String
  Anonymous : Bool
  Typ : String
  Tag : String
  Tags : Option Tags
deriving DecidableEq, Repr

/-- Struct go struct. -/
structure Struct where
  Name : String
  Doc : String
  Fields : List StructField
deriving DecidableEq, Repr

/-- Function go func. -/
structure Function where
  Name : String
  Doc : String
  Anonymous : Bool
  InputParams : List String
  ReturnParams : List String
deriving DecidableEq, Repr

/-- Interface go interface. -/
structure Interface where
  Name : String
  Doc : String
  Functions : List Function
deriving DecidableEq, Repr

/-- Value go value, contains constants, variables. -/
structure Value where
  Name : String
  Doc : String
  Kind : String
  Val : String
deriving DecidableEq, Repr

/-- A Go `map[string]*T`: a lookup of an absent key yields `nil`. -/
abbrev GoMap (α : Type) := String → Option α

/-- The result of `make(map[string]*T)` (and the nil map, for lookups). -/
def GoMap.empty {α : Type} : GoMap α :=
  fun _ => none

/-- The assignment `m[k] = v`. -/
def GoMap.set {α : Type} (m : GoMap α) (k : String) (v : α) : GoMap α :=
  fun k1 => if k1 = k then some v else m k1

/-- Parser ast parser. -/
structure Parser where
  Imports : List String
  Structs : List Struct
  Values : List Value
  Interfaces : List Interface
  valueMap : GoMap Value
  structMap : GoMap Struct
  interfaceMap : GoMap Interface

/-- The result of `new(Parser)`. -/
def Parser.new : Parser :=
  ⟨[], [], [], [], GoMap.empty, GoMap.empty, GoMap.empty⟩

def Parser.GetStruct (parser : Parser) (name : String) : Option Struct :=
  parser.structMap name

def Parser.GetInterface (parser : Parser) (name : String) : Option Interface :=
  parser.interfaceMap name

def Parser.GetValue (parser : Parser) (name : String) : Option Value :=
  parser.valueMap name

/-- The method `Parser.init`: the three maps are rebuilt from the three sequences, each
loop assigning `m[x.Name] = x` in sequence order. -/
def Parser.init (parser : Parser) : Parser :=
  { parser with
    valueMap := parser.Values.foldl (fun m v => m.set v.Name v) GoMap.empty
    structMap := parser.Structs.foldl (fun m s => m.set s.Name s) GoMap.empty
    interfaceMap := parser.Interfaces.foldl (fun m i => m.set i.Name i) GoMap.empty }

/-- The call `v.Tags.String()`: the serializer reads the tag list of its receiver, so a
nil receiver is a nil-pointer dereference. -/
def tagsString (env : Env) : Option Tags → Except Panic String
  | none => .error .nilPointerDereference
  | some t => .ok (env.tagsString t)

/-- The visitor of `RangeFieldTags`, with its captured variables as a state `σ`: given the
field's `Tags`, the field and its anonymity flag, it returns its new state, the field as
its writes through the two pointers leave it, and its boolean result. -/
abbrev TagVisitor (σ : Type) := Option Tags → StructField → Bool → σ → (σ × StructField) × Bool

/-- The loop of `RangeFieldTags` over the remaining fields. -/
def RangeFieldTags.loop {σ : Type} (env : Env) (fn : TagVisitor σ) :
    List StructField → σ → Except Panic (σ × List StructField)
  | [], s => .ok (s, [])
  | v :: rest, s =>
    match fn v.Tags v v.Anonymous s with
    | ((s1, v1), false) => .ok (s1, v1 :: rest)
    | ((s1, v1), true) =>
      match tagsString env v1.Tags with
      | .error p => .error p
      | .ok str =>
        match RangeFieldTags.loop env fn rest s1 with
        | .error p => .error p
        | .ok (s2, rest2) => .ok (s2, { v1 with Tag := str } :: rest2)

/-- The method `Struct.RangeFieldTags`: the fields are updated in place, so the result is
the record afterwards, next to the final state of the visitor. -/
def Struct.RangeFieldTags {σ : Type} (env : Env) (st : Struct) (fn : TagVisitor σ) (s : σ) :
    Except Panic (σ × Struct) :=
  match RangeFieldTags.loop env fn st.Fields s with
  | .error p => .error p
  | .ok (s1, fields) => .ok (s1, { st with Fields := fields })

/-! ## Extraction (`parser.go`) -/

/-- The index expression `l[i]`. -/
def index {α : Type} (l : List α) (i : Nat) : Except Panic α :=
  match l.get? i with
  | some a => .ok a
  | none => .error .indexOutOfRange

/-- The statement `if x.Doc != nil { y.Doc = x.Doc.Text() }` on a zero-valued `y.Doc`. -/
def docText : Option CommentGroup → String
  | none => ""
  | some d => d.Text

def getCodeBlock (env : Env) (i : Node) : String × Err :=
  match env.formatNode i with
  | .error e => ("", some ("getCodeBlock failure, error: " ++ e))
  | .ok dst => (dst, none)

/-- The loop of `parseImports`; `imports` holds the slots filled so far. -/
def parseImports.loop (env : Env) : List ImportSpec → List String → Except Panic (List String × Err)
  | [], imports => .ok (imports, none)
  | spec :: rest, imports =>
    match env.formatNode (.ImportSpec spec) with
    | .error e => .ok ([], some e)
    | .ok str =>
      match sliceInner str with
      | .error p => .error p
      | .ok path => parseImports.loop env rest (imports ++ [path])

/-- parseImports get import list. -/
def parseImports (env : Env) (file : File) : Except Panic (List String × Err) :=
  parseImports.loop env file.Imports []

/-- One iteration of the loop of `parseStructFields`: the field built, or the error with
which the function returns. -/
def parseStructFields.field (env : Env) (fieldSpec : Field) : Except String StructField :=
  let anonymous := decide (fieldSpec.Names.length = 0)
  let name : String × Err :=
    match fieldSpec.Names with
    | n :: _ => (n, none)
    | [] => getCodeBlock env (.Expr fieldSpec.Typ)
  match name with
  | (_, some e) => .error e
  | (fieldName, none) =>
    match getCodeBlock env (.Expr fieldSpec.Typ) with
    | (_, some e) => .error e
    | (typ, none) =>
      let doc := docText fieldSpec.Doc
      match fieldSpec.Tag with
      | some value =>
        if value.length > 2 then
          let tagValue := slice value 1 (value.length - 1)
          match env.structtagParse tagValue with
          | (_, some e) => .error e
          | (tags, none) => .ok ⟨fieldName, doc, anonymous, typ, tagValue, tags⟩
        else .ok ⟨fieldName, doc, anonymous, typ, "", none⟩
      | none => .ok ⟨fieldName, doc, anonymous, typ, "", none⟩

/-- The loop of `parseStructFields` over the remaining entries. -/
def parseStructFields.loop (env : Env) :
    List Field → List StructField → List StructField × Err
  | [], structFields => (structFields, none)
  | fieldSpec :: rest, structFields =>
    match parseStructFields.field env fieldSpec with
    | .error e => (structFields, some e)
    | .ok structField => parseStructFields.loop env rest (structFields ++ [structField])

/-- parseStrutFields get struct field list. -/
def parseStructFields (env : Env) (structName : String) (fields : FieldList) :
    List StructField × Err :=
  let _ := structName
  parseStructFields.loop env fields.Lst []

/-- parseFunctionFields get function field list. -/
def parseFunctionFields : List Field → List String
  | [] => []
  | t :: rest =>
    let expr : Expr :=
      match t.Typ with
      | .StarExpr x => x
      | e => e
    match expr with
    | .Ident name => name :: parseFunctionFields rest
    | _ => parseFunctionFields rest

/-- The statements `if l != nil { x = parseFunctionFields(l) }` on a zero-valued `x`. -/
def parseFunctionFieldsOpt : Option FieldList → List String
  | none => []
  | some l => parseFunctionFields l.Lst

/-- The loop of `parseInterfaceFunctions` over the remaining entries. -/
def parseInterfaceFunctions.loop (env : Env) : List Field → List Function → List Function × Err
  | [], methods => (methods, none)
  | fnSpec :: rest, methods =>
    let anonymous := decide (fnSpec.Names.length = 0)
    let name : String × Err :=
      match fnSpec.Names with
      | n :: _ => (n, none)
      | [] => getCodeBlock env (.Expr fnSpec.Typ)
    match name with
    | (_, some e) => (methods, some e)
    | (fnName, none) =>
      let doc := docText fnSpec.Doc
      match fnSpec.Typ with
      | .FuncType params results =>
        parseInterfaceFunctions.loop env rest
          (methods ++
            [⟨fnName, doc, anonymous, parseFunctionFieldsOpt params, parseFunctionFieldsOpt results⟩])
      | _ => parseInterfaceFunctions.loop env rest methods

/-- parseInterfaceFunctions get interface function list. -/
def parseInterfaceFunctions (env : Env) (list : FieldList) : List Function × Err :=
  parseInterfaceFunctions.loop env list.Lst []

/-- The classifier callback of `inspectTypeSpec` with its captured variables as a state. -/
abbrev Classifier (σ : Type) := TypeSpec → σ → σ × (Bool × Err)

/-- The loop of the visitor of `inspectTypeSpec` over the entries of one group: on an error
of the callback the visitor returns, so the rest of the group is not looked at. -/
def inspectTypeSpec.specs {σ : Type} (fn : Classifier σ) : List Spec → σ → σ
  | [], s => s
  | .TypeSpec t :: rest, s =>
    match t.Typ with
    | none => inspectTypeSpec.specs fn rest s
    | some _ =>
      match fn t s with
      | (s1, (_, some _)) => s1
      | (s1, (false, none)) => inspectTypeSpec.specs fn rest s1
      | (s1, (true, none)) => inspectTypeSpec.specs fn rest s1
  | _ :: rest, s => inspectTypeSpec.specs fn rest s

/-- The visitor that `inspectTypeSpec` hands to `ast.Inspect`: it always returns true. -/
def inspectTypeSpec.visitor {σ : Type} (fn : Classifier σ) : Visitor σ
  | .GenDecl genDecl, s => .ok (inspectTypeSpec.specs fn genDecl.Specs s, true)
  | _, s => .ok (s, true)

def inspectTypeSpec {σ : Type} (file : File) (fn : Classifier σ) (s : σ) : Except Panic σ :=
  Inspect file (inspectTypeSpec.visitor fn) s

/-- The variables `structs` and `err` of `parseStruts`, which its callback captures. -/
structure StrutsVars where
  structs : List Struct
  err : Err

/-- The callback of `parseStruts`. -/
def parseStruts.fn (env : Env) : Classifier StrutsVars :=
  fun spec vars =>
    match spec.Typ with
    | some (.StructType fields) =>
      let name := spec.Name
      let doc := docText spec.Doc
      match fields with
      | some fl =>
        match parseStructFields env name fl with
        | (_, some e) => (⟨vars.structs, some e⟩, (false, some e))
        | (fs, none) => (⟨vars.structs ++ [⟨name, doc, fs⟩], none⟩, (true, none))
      | none => (⟨vars.structs ++ [⟨name, doc, []⟩], vars.err⟩, (true, none))
    | _ => (vars, (false, none))

/-- parseStructs get structs. The statement `return structs, nil` stores `nil` in the
named result `err` before the deferred function tests it. -/
def parseStruts (env : Env) (file : File) : Except Panic (List Struct × Err) :=
  match inspectTypeSpec file (parseStruts.fn env) ⟨[], none⟩ with
  | .error p => .error p
  | .ok vars =>
    let returned : StrutsVars := ⟨vars.structs, none⟩
    let deferred : StrutsVars :=
      if returned.err ≠ none then ⟨[], returned.err⟩ else returned
    .ok (deferred.structs, deferred.err)

/-- The loop of the visitor of `parseValues` over the entries of one group. -/
def parseValues.specs : List Spec → List Value → Except Panic (List Value)
  | [], values => .ok values
  | .ValueSpec t :: rest, values =>
    match index t.Names 0 with
    | .error p => .error p
    | .ok name =>
      let doc := docText t.Doc
      match index t.Values 0 with
      | .error p => .error p
      | .ok (.BasicLit kind value) =>
        let k := ToLower kind.String
        let val := if k = "string" ∧ value.length > 2 then slice value 1 (value.length - 1) else value
        parseValues.specs rest (values ++ [⟨name, doc, k, val⟩])
      | .ok _ => parseValues.specs rest values
  | _ :: rest, values => parseValues.specs rest values

/-- The visitor that `parseValues` hands to `ast.Inspect`: it always returns true. -/
def parseValues.visitor : Visitor (List Value)
  | .GenDecl genDecl, values =>
    match parseValues.specs genDecl.Specs values with
    | .error p => .error p
    | .ok values1 => .ok (values1, true)
  | _, values => .ok (values, true)

/-- parseValues get variables and constants. -/
def parseValues (file : File) : Except Panic (List Value × Err) :=
  match Inspect file parseValues.visitor [] with
  | .error p => .error p
  | .ok values => .ok (values, none)

/-- The variables `interfaces` and `err` of `parseInterfaces`, which its callback captures. -/
structure InterfacesVars where
  interfaces : List Interface
  err : Err

/-- The callback of `parseInterfaces`. -/
def parseInterfaces.fn (env : Env) : Classifier InterfacesVars :=
  fun spec vars =>
    match spec.Typ with
    | some (.InterfaceType methods) =>
      let name := spec.Name
      let doc := docText spec.Doc
      match methods with
      | some ml =>
        match parseInterfaceFunctions env ml with
        | (_, some e) => (⟨vars.interfaces, some e⟩, (false, some e))
        | (fns, none) => (⟨vars.interfaces ++ [⟨name, doc, fns⟩], none⟩, (true, none))
      | none => (⟨vars.interfaces ++ [⟨name, doc, []⟩], vars.err⟩, (true, none))
    | _ => (vars, (false, none))

/-- parseInterfaces get interfaces. As in `parseStruts`, `return interfaces, nil` stores
`nil` in `err` before the deferred function tests it. -/
def parseInterfaces (env : Env) (file : File) : Except Panic (List Interface × Err) :=
  match inspectTypeSpec file (parseInterfaces.fn env) ⟨[], none⟩ with
  | .error p => .error p
  | .ok vars =>
    let returned : InterfacesVars := ⟨vars.interfaces, none⟩
    let deferred : InterfacesVars :=
      if returned.err ≠ none then ⟨[], returned.err⟩ else returned
    .ok (deferred.interfaces, deferred.err)

/-- ParseBytes parses the code and return a parser. Each extractor result is stored in the
parser before its error is tested. -/
def ParseBytes (env : Env) (code : String) : Except Panic (Parser × Err) :=
  let psr := Parser.new
  match env.ParseFile code with
  | .error e => .ok (psr, some e)
  | .ok file =>
    match parseImports env file with
    | .error p => .error p
    | .ok (imports, some e) => .ok ({ psr with Imports := imports }, some e)
    | .ok (imports, none) =>
      let psr := { psr with Imports := imports }
      match parseStruts env file with
      | .error p => .error p
      | .ok (structs, some e) => .ok ({ psr with Structs := structs }, some e)
      | .ok (structs, none) =>
        let psr := { psr with Structs := structs }
        match parseValues file with
        | .error p => .error p
        | .ok (values, some e) => .ok ({ psr with Values := values }, some e)
        | .ok (values, none) =>
          let psr := { psr with Values := values }
          match parseInterfaces env file with
          | .error p => .error p
          | .ok (interfaces, some e) => .ok ({ psr with Interfaces := interfaces }, some e)
          | .ok (interfaces, none) => .ok (({ psr with Interfaces := interfaces }).init, none)

/-- Parse parses the code and return a parser. -/
def Parse (env : Env) (code : String) : Except Panic (Parser × Err) :=
  ParseBytes env code

/-! ## Concrete collaborators, for evaluating the code on concrete sources

They follow the libraries on the inputs used below: one-line type expressions and import
clauses without comments for `go/format`; annotation texts without escape sequences for
`structtag`. -/

/-- The text `go/format` prints for an identifier, a literal, a pointer, a qualified name,
an array or a map type; any other shape is outside this model of the printer and is
reported as such. -/
def printExpr : Expr → Except String String
  | .Ident n => .ok n
  | .BasicLit _ v => .ok v
  | .StarExpr x =>
    match printExpr x with
    | .ok t => .ok ("*" ++ t)
    | .error e => .error e
  | .SelectorExpr x sel =>
    match printExpr x with
    | .ok t => .ok (t ++ "." ++ sel)
    | .error e => .error e
  | .ArrayType none e =>
    match printExpr e with
    | .ok t => .ok ("[]" ++ t)
    | .error e => .error e
  | .ArrayType (some l) e =>
    match printExpr l, printExpr e with
    | .ok n, .ok t => .ok ("[" ++ n ++ "]" ++ t)
    | .error e, _ => .error e
    | _, .error e => .error e
  | .MapType k v =>
    match printExpr k, printExpr v with
    | .ok a, .ok b => .ok ("map[" ++ a ++ "]" ++ b)
    | .error e, _ => .error e
    | _, .error e => .error e
  | _ => .error "shape outside the printer model"

/-- The text `go/format` prints for a node: an import clause without comments is printed
as its name, when it has one, a blank, and its path literal. -/
def printNode : Node → Except String String
  | .Expr e => printExpr e
  | .ImportSpec ⟨none, none, path, none⟩ => .ok path
  | .ImportSpec ⟨none, some name, path, none⟩ => .ok (name ++ " " ++ path)
  | _ => .error "shape outside the printer model"

/-- The key scan of `structtag.Parse`: the characters up to the first blank, control
character, colon, quote or DEL. -/
def structtag.scanKey : List Char → List Char × List Char
  | [] => ([], [])
  | c :: cs =>
    if c.val > 32 ∧ c ≠ ':' ∧ c ≠ '"' ∧ c.val ≠ 127 then
      ((structtag.scanKey cs).1.cons c, (structtag.scanKey cs).2)
    else ([], c :: cs)

/-- The value scan of `structtag.Parse` after the opening quote: the characters up to the
closing quote and what follows it; `none` when the quote is not closed or the value holds
a backslash or a line break (escape sequences are outside this model). -/
def structtag.scanValue : List Char → Option (List Char × List Char)
  | [] => none
  | c :: cs =>
    if c = '"' then some ([], cs)
    else if c = '\\' ∨ c = '\n' then none
    else
      match structtag.scanValue cs with
      | none => none
      | some (v, rest) => some (c :: v, rest)

/-- The function `strings.Split(s, ",")`. -/
def splitComma : List Char → List String
  | [] => [""]
  | c :: cs =>
    match splitComma cs with
    | [] => [""]
    | w :: ws => if c = ',' then "" :: w :: ws else ⟨c :: w.data⟩ :: ws

/-- The loop of `structtag.Parse`; every round consumes a character, so the length of the
text is fuel enough. -/
def structtag.parseLoop : Nat → List Char → List Tag → Except String (List Tag)
  | 0, _, tags => .ok tags
  | fuel + 1, tag, tags =>
    match tag.dropWhile (fun c => c = ' ') with
    | [] => .ok tags
    | c :: cs =>
      match structtag.scanKey (c :: cs) with
      | ([], _) => .error "bad syntax for struct tag key"
      | (key, ':' :: '"' :: rest) =>
        match structtag.scanValue rest with
        | none => .error "bad syntax for struct tag value"
        | some (value, rest1) =>
          match splitComma value with
          | [] => .error "bad syntax for struct tag value"
          | name :: options => structtag.parseLoop fuel rest1 (tags ++ [⟨⟨key⟩, name, options⟩])
      | (_, [':']) => .error "bad syntax for struct tag pair"
      | (_, ':' :: _ :: _) => .error "bad syntax for struct tag value"
      | (_, _) => .error "bad syntax for struct tag pair"

/-- The function `structtag.Parse`: a text holding blanks only decodes to a nil `*Tags`
without an error. -/
def structtag.Parse (tag : String) : Option Tags × Err :=
  match structtag.parseLoop (tag.length + 1) tag.data [] with
  | .error e => (none, some e)
  | .ok tags => if tag ≠ "" ∧ tags.length = 0 then (none, none) else (some ⟨tags⟩, none)

/-- The method `(*Tag).String`, the key, a colon and the value between double quotes. The
library quotes the value with the verb `%q`, which also escapes quotes, backslashes and
non-printable characters: this model is the library on values without such characters. -/
def structtag.Tag.String (t : Tag) : String :=
  t.Key ++ ":\"" ++ ",".intercalate (t.Name :: t.Options) ++ "\""

/-- The method `(*Tags).String` on a non-nil receiver: the tags, separated by blanks. -/
def structtag.Tags.String (t : Tags) : String :=
  " ".intercalate (t.tags.map structtag.Tag.String)

/-- The collaborators for a source that the front end parses to `file`. -/
def envOf (file : File) : Env :=
  ⟨fun _ => .ok file, printNode, structtag.Parse, structtag.Tags.String⟩

/-! ## Declaration groups of a tree, in the order `ast.Inspect` reaches them -/

mutual
/-- The declaration groups inside an expression, in traversal order. -/
def Expr.groups : Expr → List GenDecl
  | .Ident _ => []
  | .BasicLit _ _ => []
  | .StarExpr x => x.groups
  | .SelectorExpr x _ => x.groups
  | .ArrayType l e => groupsOptExpr l ++ e.groups
  | .MapType k v => k.groups ++ v.groups
  | .StructType fl => groupsOptFieldList fl
  | .InterfaceType fl => groupsOptFieldList fl
  | .FuncType p r => groupsOptFieldList p ++ groupsOptFieldList r
  | .FuncLit t b => t.groups ++ groupsStmtList b
  | .CallExpr fn args => fn.groups ++ groupsExprList args
  | .CompositeLit t elts => groupsOptExpr t ++ groupsExprList elts
  | .UnaryExpr _ x => x.groups
  | .KeyValueExpr k v => k.groups ++ v.groups
def groupsOptExpr : Option Expr → List GenDecl
  | none => []
  | some e => e.groups
def groupsExprList : List Expr → List GenDecl
  | [] => []
  | e :: es => e.groups ++ groupsExprList es
def Field.groups : Field → List GenDecl
  | .mk _ _ t _ => t.groups
def groupsFields : List Field → List GenDecl
  | [] => []
  | x :: xs => x.groups ++ groupsFields xs
def FieldList.groups : FieldList → List GenDecl
  | .mk l => groupsFields l
def groupsOptFieldList : Option FieldList → List GenDecl
  | none => []
  | some fl => fl.groups
def Stmt.groups : Stmt → List GenDecl
  | .DeclStmt d => d.groups
  | .ExprStmt x => x.groups
  | .AssignStmt l r => groupsExprList l ++ groupsExprList r
  | .ReturnStmt r => groupsExprList r
  | .BlockStmt l => groupsStmtList l
def groupsStmtList : List Stmt → List GenDecl
  | [] => []
  | x :: xs => x.groups ++ groupsStmtList xs
def ValueSpec.groups : ValueSpec → List GenDecl
  | .mk _ _ t vs => groupsOptExpr t ++ groupsExprList vs
def TypeSpec.groups : TypeSpec → List GenDecl
  | .mk _ _ t => groupsOptExpr t
def Spec.groups : Spec → List GenDecl
  | .ImportSpec _ => []
  | .ValueSpec s => s.groups
  | .TypeSpec s => s.groups
def groupsSpecs : List Spec → List GenDecl
  | [] => []
  | x :: xs => x.groups ++ groupsSpecs xs
/-- A group comes before the groups nested in its entries. -/
def GenDecl.groups : GenDecl → List GenDecl
  | .mk d specs => GenDecl.mk d specs :: groupsSpecs specs
end

/-- The declaration groups inside an optional function body. -/
def groupsBody : Option (List Stmt) → List GenDecl
  | none => []
  | some b => groupsStmtList b

/-- The declaration groups of a function declaration: receiver, type, body. -/
def FuncDecl.groups (d : FuncDecl) : List GenDecl :=
  groupsOptFieldList d.Recv ++ (d.Typ.groups ++ groupsBody d.Body)

/-- The declaration groups of a top-level declaration. -/
def groupsDecl : Decl → List GenDecl
  | .GenDecl d => d.groups
  | .FuncDecl d => d.groups

/-- The declaration groups of a list of top-level declarations. -/
def groupsDecls : List Decl → List GenDecl
  | [] => []
  | x :: xs => groupsDecl x ++ groupsDecls xs

/-- Every declaration group of the file, top-level or nested in a function body or a
function literal, in the order `ast.Inspect` reaches them. -/
def File.groups (file : File) : List GenDecl :=
  groupsDecls file.Decls

/-- The top-level declaration groups of the file. -/
def File.topLevelGroups (file : File) : List GenDecl :=
  file.Decls.filterMap fun d =>
    match d with
    | .GenDecl g => some g
    | .FuncDecl _ => none

/-- Running a per-group action over a list of groups, stopping at the first panic. -/
def runGroups {σ : Type} (g : GenDecl → σ → Except Panic σ) : List GenDecl → σ → Except Panic σ
  | [] => .ok
  | d :: ds => andThen (g d) (runGroups g ds)

/-- Whether a node is a declaration group. -/
def Node.isGenDecl : Node → Bool
  | .GenDecl _ => true
  | _ => false

/-- A visitor that acts on declaration groups only, by `g`, and always asks to descend. -/
structure GroupVisitor {σ : Type} (f : Visitor σ) (g : GenDecl → σ → Except Panic σ) : Prop where
  onGroup : ∀ d s, f (.GenDecl d) s =
    match g d s with
    | .error p => .error p
    | .ok s1 => .ok (s1, true)
  onOther : ∀ n s, n.isGenDecl = false → f n s = .ok (s, true)

/-! ## Counting declaration entries -/

/-- A type entry whose underlying shape is a record. -/
def Spec.isRecord : Spec → Bool
  | .TypeSpec (.mk _ _ (some (.StructType _))) => true
  | _ => false

/-- A type entry whose underlying shape is a method set. -/
def Spec.isInterface : Spec → Bool
  | .TypeSpec (.mk _ _ (some (.InterfaceType _))) => true
  | _ => false

/-- A constant or variable entry whose first initializer is a literal expression. -/
def Spec.isLiteralValue : Spec → Bool
  | .ValueSpec (.mk _ _ _ (.BasicLit _ _ :: _)) => true
  | _ => false

/-- The number of entries satisfying `p` in the given declaration groups. -/
def countSpecs (p : Spec → Bool) (gs : List GenDecl) : Nat :=
  (gs.map fun d => d.Specs.countP p).sum

/-- Field extraction succeeds for the entry, when it is a record with a field list. -/
def Spec.fieldsExtract (env : Env) : Spec → Bool
  | .TypeSpec (.mk _ name (some (.StructType (some fl)))) =>
    (parseStructFields env name fl).2.isNone
  | _ => true

/-- Method extraction succeeds for the entry, when it is a method set with a method list. -/
def Spec.methodsExtract (env : Env) : Spec → Bool
  | .TypeSpec (.mk _ _ (some (.InterfaceType (some ml)))) =>
    (parseInterfaceFunctions env ml).2.isNone
  | _ => true

/-- A constant or variable entry has a first name and a first initializer. -/
def Spec.hasFirstPair : Spec → Bool
  | .ValueSpec (.mk _ (_ :: _) _ (_ :: _)) => true
  | .ValueSpec _ => false
  | _ => true

/-- Every entry of every declaration group of the file, nested groups included,
satisfies `p`. -/
def File.allSpecs (file : File) (p : Spec → Bool) : Bool :=
  file.groups.all fun d => d.Specs.all p

/-! ## Concrete sources -/

/-- An entry `name typ` of a field list, without doc and tag. -/
def plainField (name typ : String) : Field :=
  .mk none [name] (.Ident typ) none

/-- The call `fmt.Println(args...)` as a statement. -/
def printlnStmt (args : List Expr) : Stmt :=
  .ExprStmt (.CallExpr (.SelectorExpr (.Ident "fmt") "Println") args)

/-- The syntax tree of the source in `TestParse` (`parse_test.go`). A doc comment in front
of an ungrouped declaration belongs to the group, not to the entry. -/
def testFile : File :=
  ⟨none, "main",
    [ .GenDecl (.mk none [.ImportSpec ⟨none, none, "\"fmt\"", none⟩]),
      .GenDecl (.mk (some ⟨"Greeting greeting interface\n"⟩)
        [.TypeSpec (.mk none "Greeting" (some (.InterfaceType (some (.mk
          [.mk (some ⟨"SayHello say hello\n"⟩) ["SayHello"]
            (.FuncType (some (.mk [])) none) none])))))]),
      .GenDecl (.mk (some ⟨"Dog dog type struct\n"⟩)
        [.TypeSpec (.mk none "Dog" (some (.StructType (some (.mk [plainField "Name" "string"])))))]),
      .FuncDecl ⟨some ⟨"SayHello dog say hello\n"⟩,
        some (.mk [.mk none ["dog"] (.StarExpr (.Ident "Dog")) none]), "SayHello",
        .FuncType (some (.mk [])) none,
        some [printlnStmt [.BasicLit .STRING "\"Bow-wow! I am\"", .SelectorExpr (.Ident "dog") "Name"]]⟩,
      .GenDecl (.mk (some ⟨"FirstName first name\n"⟩)
        [.ValueSpec (.mk none ["FirstName"] none [.BasicLit .STRING "\"Kevin\""])]),
      .GenDecl (.mk (some ⟨"LastName last name\n"⟩)
        [.ValueSpec (.mk none ["LastName"] none [.BasicLit .STRING "\"Ma\""])]),
      .FuncDecl ⟨none, none, "main", .FuncType (some (.mk [])) none,
        some [ .AssignStmt [.Ident "dog"]
                 [.UnaryExpr "&" (.CompositeLit (some (.Ident "Dog"))
                   [.KeyValueExpr (.Ident "Name") (.BasicLit .STRING "\"Buddy\"")])],
               .ExprStmt (.CallExpr (.SelectorExpr (.Ident "dog") "SayHello") []),
               printlnStmt [.BasicLit .STRING "\"The author is\"", .Ident "FirstName",
                 .Ident "LastName"] ]⟩ ],
    [⟨none, none, "\"fmt\"", none⟩]⟩

/-- A file of package `p` with the given top-level declarations and no import. -/
def fileOf (decls : List Decl) : File :=
  ⟨none, "p", decls, []⟩

/-- An ungrouped declaration `type name typ`. -/
def typeDecl (name : String) (typ : Expr) : GenDecl :=
  .mk none [.TypeSpec (.mk none name (some typ))]

/-- The field list of a record with the field `X int` carrying the tag literal `bad`
between back-quotes. -/
def badTagFields : FieldList :=
  .mk [.mk none ["X"] (.Ident "int") (some "`bad`")]

/-- The tree of: `type A struct { X int` followed by the tag `bad` between back-quotes. -/
def badTagFile : File :=
  fileOf [.GenDecl (typeDecl "A" (.StructType (some badTagFields)))]

/-- The tree of: `type Good struct { N int }`, then the record `Bad` with the fields of
`badTagFields`, then `type Last struct { M int }` in a group of its own. -/
def partialFile : File :=
  fileOf [ .GenDecl (typeDecl "Good" (.StructType (some (.mk [plainField "N" "int"])))),
           .GenDecl (typeDecl "Bad" (.StructType (some badTagFields))),
           .GenDecl (typeDecl "Last" (.StructType (some (.mk [plainField "M" "int"])))) ]

/-- A function `func f()` with the given body. -/
def funcF (body : List Stmt) : Decl :=
  .FuncDecl ⟨none, none, "f", .FuncType (some (.mk [])) none, some body⟩

/-- The tree of: `func f() { type T struct{}; type I interface{} }`. -/
def nestedTypeFile : File :=
  fileOf [funcF [ .DeclStmt (typeDecl "T" (.StructType (some (.mk [])))),
                  .DeclStmt (typeDecl "I" (.InterfaceType (some (.mk [])))) ]]

/-- The tree of: `func f() { var x = 1 }`. -/
def nestedValueFile : File :=
  fileOf [funcF [.DeclStmt (.mk none [.ValueSpec (.mk none ["x"] none [.BasicLit .INT "1"])])]]

/-- The tree of: `var x int`. -/
def noInitializerFile : File :=
  fileOf [.GenDecl (.mk none [.ValueSpec (.mk none ["x"] (some (.Ident "int")) [])])]

/-- The tree of a file whose only declaration is the clause `import f "fmt"`. -/
def aliasedImportFile : File :=
  ⟨none, "p", [.GenDecl (.mk none [.ImportSpec ⟨none, some "f", "\"fmt\"", none⟩])],
    [⟨none, some "f", "\"fmt\"", none⟩]⟩

/-- The tree of: `var s = ""`. -/
def emptyStringFile : File :=
  fileOf [.GenDecl (.mk none [.ValueSpec (.mk none ["s"] none [.BasicLit .STRING "\"\""])])]

/-- The tree of: `func f() { var x = 1 }` and `func g() { var x = 2 }`. -/
def duplicateNameFile : File :=
  fileOf [ funcF [.DeclStmt (.mk none [.ValueSpec (.mk none ["x"] none [.BasicLit .INT "1"])])],
           .FuncDecl ⟨none, none, "g", .FuncType (some (.mk [])) none,
             some [.DeclStmt (.mk none [.ValueSpec (.mk none ["x"] none [.BasicLit .INT "2"])])]⟩ ]

/-- The registry that `Parse` builds from `duplicateNameFile`. -/
def duplicateNameParser : Parser :=
  Parser.init
    ⟨[], [], [⟨"x", "", "int", "1"⟩, ⟨"x", "", "int", "2"⟩], [], GoMap.empty, GoMap.empty,
      GoMap.empty⟩

/-- The tree of: `type T struct { A int; B int` followed by the tag `json:"b"` between
back-quotes. -/
def mixedTagsFile : File :=
  fileOf [.GenDecl (typeDecl "T" (.StructType (some (.mk
    [plainField "A" "int", .mk none ["B"] (.Ident "int") (some "`json:\"b\"`")]))))]

/-- The record that `parseStruts` extracts from `mixedTagsFile`. -/
def mixedTagsRecord : Struct :=
  ⟨"T", "",
    [ ⟨"A", "", false, "int", "", none⟩,
      ⟨"B", "", false, "int", "json:\"b\"", some ⟨[⟨"json", "b", []⟩]⟩⟩ ]⟩

/-- The record that `parseStruts` extracts from `testFile`. -/
def dogRecord : Struct :=
  ⟨"Dog", "", [⟨"Name", "", false, "string", "", none⟩]⟩

/-- A visitor that logs the name of each field it is invoked on, writes nothing and
returns false on the field named `B` only. -/
def stopAtB : TagVisitor (List String) :=
  fun _ field _ log => ((log ++ [field.Name], field), field.Name != "B")

/-- A visitor that logs the name of each field it is invoked on, writes nothing and
always returns true. -/
def visitAll : TagVisitor (List String) :=
  fun _ field _ log => ((log ++ [field.Name], field), true)

/-- The last element of `l` named `n`, absent when no element has that name. -/
def lastNamed {α : Type} (name : α → String) (l : List α) (n : String) : Option α :=
  l.reverse.find? fun x => decide (name x = n)

/-- The field after the statement `v.Tag = v.Tags.String()`, for a field with decoded
`Tags`; a field with nil `Tags` is returned as it is. -/
def rewriteTag (env : Env) (v : StructField) : StructField :=
  match v.Tags with
  | some t => { v with Tag := env.tagsString t }
  | none => v

/-- The field list of: `struct { *Base; X, Y int` followed by the tag `json:"x"` between
back-quotes, then `Z int` followed by an empty tag literal. -/
def embeddedFields : FieldList :=
  .mk [ .mk none [] (.StarExpr (.Ident "Base")) none,
        .mk none ["X", "Y"] (.Ident "int") (some "`json:\"x\"`"),
        .mk none ["Z"] (.Ident "int") (some "``") ]

/-- The fields that `parseStructFields` extracts from `embeddedFields`. -/
def embeddedStructFields : List StructField :=
  [ ⟨"*Base", "", true, "*Base", "", none⟩,
    ⟨"X", "", false, "int", "json:\"x\"", some ⟨[⟨"json", "x", []⟩]⟩⟩,
    ⟨"Z", "", false, "int", "", none⟩ ]

/-- The text of a literal between its two delimiters. -/
def innerText (value : String) : String :=
  slice value 1 (value.length - 1)

/-- The tree of: `type ReadWriter interface { Reader; Write() }`. -/
def readWriterFile : File :=
  fileOf [.GenDecl (typeDecl "ReadWriter" (.InterfaceType (some (.mk
    [ .mk none [] (.Ident "Reader") none,
      .mk none ["Write"] (.FuncType (some (.mk [])) none) none ]))))]

/-- The name that a parameter or result entry contributes, in the words of the
specification: the identifier, when the type expression is a bare identifier or a pointer
to a bare identifier, and nothing for any other shape. -/
def capturedName (t : Field) : Option String :=
  match t.Typ with
  | .Ident name => some name
  | .StarExpr (.Ident name) => some name
  | _ => none

/-- A parameter list with one entry of each shape: `a, b int`, `*T`, `**T`, `pkg.T`, `[]T`,
`map[K]V`, `func()`. -/
def mixedParams : List Field :=
  [ .mk none ["a", "b"] (.Ident "int") none,
    .mk none [] (.StarExpr (.Ident "T")) none,
    .mk none [] (.StarExpr (.StarExpr (.Ident "T"))) none,
    .mk none [] (.SelectorExpr (.Ident "pkg") "T") none,
    .mk none [] (.ArrayType none (.Ident "T")) none,
    .mk none [] (.MapType (.Ident "K") (.Ident "V")) none,
    .mk none [] (.FuncType (some (.mk [])) none) none ]

/-- The Values that one constant or variable entry contributes, in the words of the
specification: one Value keyed on the first name, with the kind and text of the first
initializer, when that initializer is a literal, and none otherwise. -/
def valuesOfFirstPair (doc : Option CommentGroup) (name : String) (init : Expr) : List Value :=
  match init with
  | .BasicLit kind value =>
    [⟨name, docText doc, ToLower kind.String,
      if ToLower kind.String = "string" ∧ value.length > 2 then innerText value else value⟩]
  | _ => []

/-- The tree of: `var z = 2i`. -/
def imaginaryFile : File :=
  fileOf [.GenDecl (.mk none [.ValueSpec (.mk none ["z"] none [.BasicLit .IMAG "2i"])])]

/-- The kinds that the code gives to captured Values: the lower-cased names of the literal
tokens. -/
def valueKinds : List String :=
  ["int", "float", "imag", "char", "string"]

/-- A classifier that logs the name of every entry it is given, reports an error on the
entry named `Bad` and does not match the entry named `Skip`. -/
def logNames : Classifier (List String) :=
  fun spec log =>
    (log ++ [spec.Name],
      (spec.Name != "Skip" && spec.Name != "Bad", if spec.Name = "Bad" then some "bad" else none))

/-- The tree of: `type ( A int; Skip int; Bad int; C int )` followed by `type D int`. -/
def twoGroupsFile : File :=
  fileOf [ .GenDecl (.mk none
             [ .TypeSpec (.mk none "A" (some (.Ident "int"))),
               .TypeSpec (.mk none "Skip" (some (.Ident "int"))),
               .TypeSpec (.mk none "Bad" (some (.Ident "int"))),
               .TypeSpec (.mk none "C" (some (.Ident "int"))) ]),
           .GenDecl (typeDecl "D" (.Ident "int")) ]

/-- The Values that a declaration entry contributes: those of its first name and first
initializer, for a constant or variable entry that has both, and none for any other
entry. -/
def Spec.firstPairValues : Spec → List Value
  | .ValueSpec (.mk doc (name :: _) _ (init :: _)) => valuesOfFirstPair doc name init
  | _ => []

/-- The entry itself, when it is a constant or variable entry with a first name whose first
initializer is a literal. -/
def literalEntry : Spec → Option ValueSpec
  | .ValueSpec (.mk doc (name :: names) typ (.BasicLit kind value :: inits)) =>
    some (.mk doc (name :: names) typ (.BasicLit kind value :: inits))
  | _ => none

/-- The constant and variable entries of the file with a first name and a literal first
initializer, over all declaration groups in traversal order. -/
def allLiteralEntries (file : File) : List ValueSpec :=
  file.groups.flatMap fun d => d.Specs.filterMap literalEntry

/-- The Value `v` is the one built from the first name and the literal first initializer
of the entry `t`. -/
def ValueSpec.yields (t : ValueSpec) (v : Value) : Prop :=
  ∃ doc name names typ kind value inits,
    t = ValueSpec.mk doc (name :: names) typ (Expr.BasicLit kind value :: inits) ∧
      v = ⟨name, docText doc, ToLower kind.String,
        if ToLower kind.String = "string" ∧ value.length > 2 then innerText value else value⟩

/-- The record entries of one declaration group that reach the output of `parseStruts`:
the type entries of record shape, up to the first one whose field extraction fails. -/
def recordEntries (env : Env) : List Spec → List TypeSpec
  | [] => []
  | .TypeSpec (.mk doc name (some (.StructType (some fl)))) :: rest =>
    if (parseStructFields env name fl).2.isNone then
      .mk doc name (some (.StructType (some fl))) :: recordEntries env rest
    else []
  | .TypeSpec (.mk doc name (some (.StructType none))) :: rest =>
    .mk doc name (some (.StructType none)) :: recordEntries env rest
  | _ :: rest => recordEntries env rest

/-- The fields extracted for a record entry. -/
def recordFields (env : Env) (t : TypeSpec) : List StructField :=
  match t.Typ with
  | some (.StructType (some fl)) => (parseStructFields env t.Name fl).1
  | _ => []

/-- The record entries of the file that reach the output of `parseStruts`, over all
declaration groups in traversal order. -/
def allRecordEntries (env : Env) (file : File) : List TypeSpec :=
  file.groups.flatMap fun d => recordEntries env d.Specs

/-- The method-set entries of one declaration group that reach the output of
`parseInterfaces`: the type entries of method-set shape, up to the first one whose method
extraction fails. -/
def interfaceEntries (env : Env) : List Spec → List TypeSpec
  | [] => []
  | .TypeSpec (.mk doc name (some (.InterfaceType (some ml)))) :: rest =>
    if (parseInterfaceFunctions env ml).2.isNone then
      .mk doc name (some (.InterfaceType (some ml))) :: interfaceEntries env rest
    else []
  | .TypeSpec (.mk doc name (some (.InterfaceType none))) :: rest =>
    .mk doc name (some (.InterfaceType none)) :: interfaceEntries env rest
  | _ :: rest => interfaceEntries env rest

/-- The functions extracted for a method-set entry. -/
def interfaceFunctions (env : Env) (t : TypeSpec) : List Function :=
  match t.Typ with
  | some (.InterfaceType (some ml)) => (parseInterfaceFunctions env ml).1
  | _ => []

/-- The method-set entries of the file that reach the output of `parseInterfaces`, over
all declaration groups in traversal order. -/
def allInterfaceEntries (env : Env) (file : File) : List TypeSpec :=
  file.groups.flatMap fun d => interfaceEntries env d.Specs

/-- The tree of: `var a, b = 1, 2`, then `var c, d = f(), "x"`, then `const e = "s"`,
then `var g, h int = 'k', 2.5` in a function body. -/
def multiNameFile : File :=
  fileOf [ .GenDecl (.mk none [.ValueSpec (.mk none ["a", "b"] none
             [.BasicLit .INT "1", .BasicLit .INT "2"])]),
           .GenDecl (.mk none [.ValueSpec (.mk none ["c", "d"] none
             [.CallExpr (.Ident "f") [], .BasicLit .STRING "\"x\""])]),
           .GenDecl (.mk none [.ValueSpec (.mk none ["e"] none [.BasicLit .STRING "\"s\""])]),
           funcF [.DeclStmt (.mk none [.ValueSpec (.mk none ["g", "h"] (some (.Ident "int"))
             [.BasicLit .CHAR "'k'", .BasicLit .FLOAT "2.5"])])] ]

/-- The tree of: a group with doc `group doc` holding `A = 1` without doc and `B = "b"`
with doc `B doc`, then `type ( R struct{}; I interface{} )` under the doc `types doc`, with
the doc `R doc` on `R` and none on `I`. -/
def docFile : File :=
  fileOf [ .GenDecl (.mk (some ⟨"group doc\n"⟩)
             [ .ValueSpec (.mk none ["A"] none [.BasicLit .INT "1"]),
               .ValueSpec (.mk (some ⟨"B doc\n"⟩) ["B"] none [.BasicLit .STRING "\"b\""]) ]),
           .GenDecl (.mk (some ⟨"types doc\n"⟩)
             [ .TypeSpec (.mk (some ⟨"R doc\n"⟩) "R" (some (.StructType (some (.mk []))))),
               .TypeSpec (.mk none "I" (some (.InterfaceType (some (.mk []))))) ]) ]

/-! ## Traversal lemmas -/

section Walk

variable {σ : Type} {f : Visitor σ} {g : GenDecl → σ → Except Panic σ}

theorem andThen_ok_left (b : σ → Except Panic σ) : andThen Except.ok b = b := by
  funext s
  rfl

theorem andThen_ok_right (a : σ → Except Panic σ) : andThen a Except.ok = a := by
  funext s
  unfold andThen
  cases a s <;> rfl

theorem andThen_assoc (a b c : σ → Except Panic σ) :
    andThen (andThen a b) c = andThen a (andThen b c) := by
  funext s
  unfold andThen
  cases a s <;> rfl

theorem runGroups_append (a b : List GenDecl) :
    runGroups g (a ++ b) = andThen (runGroups g a) (runGroups g b) := by
  induction a with
  | nil => rw [List.nil_append, runGroups, andThen_ok_left]
  | cons d ds ih => rw [List.cons_append, runGroups, runGroups, ih, andThen_assoc]

theorem visit_other (h : GroupVisitor f g) (n : Node) (hn : n.isGenDecl = false)
    (c : σ → Except Panic σ) : visit f n c = c := by
  funext s
  simp only [visit, h.onOther n s hn]
  cases hc : c s with
  | error p => rfl
  | ok s2 => simp only [h.onOther Node.nil s2 rfl]

theorem visit_group (h : GroupVisitor f g) (d : GenDecl) (c : σ → Except Panic σ) :
    visit f (Node.GenDecl d) c = andThen (g d) c := by
  funext s
  unfold visit andThen
  rw [h.onGroup d s]
  cases g d s with
  | error p => rfl
  | ok s1 =>
    cases hc : c s1 with
    | error p => simp [hc]
    | ok s2 => simp [hc, h.onOther Node.nil s2 rfl]

theorem leaf_other (h : GroupVisitor f g) (n : Node) (hn : n.isGenDecl = false) :
    leaf f n = Except.ok :=
  visit_other h n hn Except.ok

theorem walkDoc_eq (h : GroupVisitor f g) (d : Option CommentGroup) :
    walkDoc f d = Except.ok := by
  cases d with
  | none => rfl
  | some c => exact leaf_other h _ (by rfl)

theorem walkIdents_eq (h : GroupVisitor f g) (ns : List String) :
    walkIdents f ns = Except.ok := by
  induction ns with
  | nil => rfl
  | cons n ns ih => simp only [Node.isGenDecl, walkIdents, ih, leaf_other h, andThen_ok_left]

theorem walkOptIdent_eq (h : GroupVisitor f g) (n : Option String) :
    walkOptIdent f n = Except.ok := by
  cases n with
  | none => rfl
  | some c => exact leaf_other h _ (by rfl)

theorem walkOptLit_eq (h : GroupVisitor f g) (n : Option String) :
    walkOptLit f n = Except.ok := by
  cases n with
  | none => rfl
  | some c => exact leaf_other h _ (by rfl)

theorem walkImportSpec_eq (h : GroupVisitor f g) (s : ImportSpec) :
    walkImportSpec f s = Except.ok := by
  simp only [Node.isGenDecl, walkImportSpec, visit_other h, walkDoc_eq h, walkOptIdent_eq h,
    leaf_other h, andThen_ok_left]

mutual
theorem walkExpr_eq (h : GroupVisitor f g) : ∀ e : Expr, walkExpr f e = runGroups g e.groups
  | .Ident n => by simp only [Node.isGenDecl, walkExpr, leaf_other h, Expr.groups, runGroups]
  | .BasicLit k v => by simp only [Node.isGenDecl, walkExpr, leaf_other h, Expr.groups, runGroups]
  | .StarExpr x => by simp only [Node.isGenDecl, walkExpr, visit_other h, walkExpr_eq h x,
    Expr.groups]
  | .SelectorExpr x sel => by
    simp only [Node.isGenDecl, walkExpr, visit_other h, walkExpr_eq h x, leaf_other h,
      andThen_ok_right, Expr.groups]
  | .ArrayType l e => by
    simp only [Node.isGenDecl, walkExpr, visit_other h, walkOptExpr_eq h l, walkExpr_eq h e,
      Expr.groups, runGroups_append]
  | .MapType k v => by
    simp only [Node.isGenDecl, walkExpr, visit_other h, walkExpr_eq h k, walkExpr_eq h v,
      Expr.groups, runGroups_append]
  | .StructType fl => by simp only [Node.isGenDecl, walkExpr, visit_other h,
    walkOptFieldList_eq h fl, Expr.groups]
  | .InterfaceType fl => by
    simp only [Node.isGenDecl, walkExpr, visit_other h, walkOptFieldList_eq h fl, Expr.groups]
  | .FuncType p r => by
    simp only [Node.isGenDecl, walkExpr, visit_other h, walkOptFieldList_eq h p,
      walkOptFieldList_eq h r, Expr.groups, runGroups_append]
  | .FuncLit t b => by
    simp only [Node.isGenDecl, walkExpr, visit_other h, walkExpr_eq h t, walkStmtList_eq h b,
      Expr.groups, runGroups_append]
  | .CallExpr fn args => by
    simp only [Node.isGenDecl, walkExpr, visit_other h, walkExpr_eq h fn, walkExprList_eq h args,
      Expr.groups, runGroups_append]
  | .CompositeLit t elts => by
    simp only [Node.isGenDecl, walkExpr, visit_other h, walkOptExpr_eq h t,
      walkExprList_eq h elts, Expr.groups, runGroups_append]
  | .UnaryExpr op x => by
    simp only [Node.isGenDecl, walkExpr, visit_other h, walkExpr_eq h x, Expr.groups]
  | .KeyValueExpr k v => by
    simp only [Node.isGenDecl, walkExpr, visit_other h, walkExpr_eq h k, walkExpr_eq h v,
      Expr.groups, runGroups_append]
theorem walkOptExpr_eq (h : GroupVisitor f g) :
    ∀ e : Option Expr, walkOptExpr f e = runGroups g (groupsOptExpr e)
  | none => by rw [walkOptExpr, groupsOptExpr, runGroups]
  | some e => by rw [walkOptExpr, groupsOptExpr, walkExpr_eq h e]
theorem walkExprList_eq (h : GroupVisitor f g) :
    ∀ es : List Expr, walkExprList f es = runGroups g (groupsExprList es)
  | [] => by rw [walkExprList, groupsExprList, runGroups]
  | e :: es => by
    rw [walkExprList, groupsExprList, walkExpr_eq h e, walkExprList_eq h es, runGroups_append]
theorem walkField_eq (h : GroupVisitor f g) : ∀ x : Field, walkField f x = runGroups g x.groups
  | .mk d ns t tag => by
    simp only [Node.isGenDecl, walkField, visit_other h, walkDoc_eq h, walkIdents_eq h,
      walkOptLit_eq h, walkExpr_eq h t, andThen_ok_left, andThen_ok_right, Field.groups]
theorem walkFields_eq (h : GroupVisitor f g) :
    ∀ xs : List Field, walkFields f xs = runGroups g (groupsFields xs)
  | [] => by rw [walkFields, groupsFields, runGroups]
  | x :: xs => by
    rw [walkFields, groupsFields, walkField_eq h x, walkFields_eq h xs, runGroups_append]
theorem walkFieldList_eq (h : GroupVisitor f g) :
    ∀ x : FieldList, walkFieldList f x = runGroups g x.groups
  | .mk l => by simp only [Node.isGenDecl, walkFieldList, visit_other h, walkFields_eq h l,
    FieldList.groups]
theorem walkOptFieldList_eq (h : GroupVisitor f g) :
    ∀ x : Option FieldList, walkOptFieldList f x = runGroups g (groupsOptFieldList x)
  | none => by rw [walkOptFieldList, groupsOptFieldList, runGroups]
  | some fl => by rw [walkOptFieldList, groupsOptFieldList, walkFieldList_eq h fl]
theorem walkStmt_eq (h : GroupVisitor f g) : ∀ x : Stmt, walkStmt f x = runGroups g x.groups
  | .DeclStmt d => by simp only [Node.isGenDecl, walkStmt, visit_other h, walkGenDecl_eq h d,
    Stmt.groups]
  | .ExprStmt x => by simp only [Node.isGenDecl, walkStmt, visit_other h, walkExpr_eq h x,
    Stmt.groups]
  | .AssignStmt l r => by
    simp only [Node.isGenDecl, walkStmt, visit_other h, walkExprList_eq h l, walkExprList_eq h r,
      Stmt.groups, runGroups_append]
  | .ReturnStmt r => by simp only [Node.isGenDecl, walkStmt, visit_other h, walkExprList_eq h r,
    Stmt.groups]
  | .BlockStmt l => by simp only [Node.isGenDecl, walkStmt, visit_other h, walkStmtList_eq h l,
    Stmt.groups]
theorem walkStmtList_eq (h : GroupVisitor f g) :
    ∀ xs : List Stmt, walkStmtList f xs = runGroups g (groupsStmtList xs)
  | [] => by rw [walkStmtList, groupsStmtList, runGroups]
  | x :: xs => by
    rw [walkStmtList, groupsStmtList, walkStmt_eq h x, walkStmtList_eq h xs, runGroups_append]
theorem walkValueSpec_eq (h : GroupVisitor f g) :
    ∀ x : ValueSpec, walkValueSpec f x = runGroups g x.groups
  | .mk d ns t vs => by
    simp only [Node.isGenDecl, walkValueSpec, visit_other h, walkDoc_eq h, walkIdents_eq h,
      walkOptExpr_eq h t, walkExprList_eq h vs, andThen_ok_left, ValueSpec.groups,
      runGroups_append]
theorem walkTypeSpec_eq (h : GroupVisitor f g) :
    ∀ x : TypeSpec, walkTypeSpec f x = runGroups g x.groups
  | .mk d n t => by
    simp only [Node.isGenDecl, walkTypeSpec, visit_other h, walkDoc_eq h, leaf_other h,
      walkOptExpr_eq h t, andThen_ok_left, TypeSpec.groups]
theorem walkSpec_eq (h : GroupVisitor f g) : ∀ x : Spec, walkSpec f x = runGroups g x.groups
  | .ImportSpec s => by rw [walkSpec, walkImportSpec_eq h, Spec.groups, runGroups]
  | .ValueSpec s => by rw [walkSpec, walkValueSpec_eq h s, Spec.groups]
  | .TypeSpec s => by rw [walkSpec, walkTypeSpec_eq h s, Spec.groups]
theorem walkSpecs_eq (h : GroupVisitor f g) :
    ∀ xs : List Spec, walkSpecs f xs = runGroups g (groupsSpecs xs)
  | [] => by rw [walkSpecs, groupsSpecs, runGroups]
  | x :: xs => by
    rw [walkSpecs, groupsSpecs, walkSpec_eq h x, walkSpecs_eq h xs, runGroups_append]
theorem walkGenDecl_eq (h : GroupVisitor f g) :
    ∀ x : GenDecl, walkGenDecl f x = runGroups g x.groups
  | .mk d specs => by
    rw [walkGenDecl, visit_group h, walkDoc_eq h, walkSpecs_eq h specs, andThen_ok_left,
      GenDecl.groups, runGroups]
end

theorem walkBody_eq (h : GroupVisitor f g) (b : Option (List Stmt)) :
    walkBody f b = runGroups g (groupsBody b) := by
  cases b with
  | none => rfl
  | some b => simp only [Node.isGenDecl, walkBody, visit_other h, walkStmtList_eq h b, groupsBody]

theorem walkFuncDecl_eq (h : GroupVisitor f g) (d : FuncDecl) :
    walkFuncDecl f d = runGroups g d.groups := by
  simp only [Node.isGenDecl, walkFuncDecl, visit_other h, walkDoc_eq h, leaf_other h,
    walkOptFieldList_eq h, walkExpr_eq h, walkBody_eq h, andThen_ok_left, FuncDecl.groups,
    runGroups_append]

theorem walkDecl_eq (h : GroupVisitor f g) (d : Decl) :
    walkDecl f d = runGroups g (groupsDecl d) := by
  cases d with
  | GenDecl d => simp only [walkDecl, groupsDecl, walkGenDecl_eq h d]
  | FuncDecl d => simp only [walkDecl, groupsDecl, walkFuncDecl_eq h d]

theorem walkDecls_eq (h : GroupVisitor f g) (ds : List Decl) :
    walkDecls f ds = runGroups g (groupsDecls ds) := by
  induction ds with
  | nil => rfl
  | cons d ds ih => simp only [walkDecls, groupsDecls, walkDecl_eq h d, ih, runGroups_append]

/-- For a visitor that acts on declaration groups only, `ast.Inspect` runs its action over
the declaration groups of the file, nested ones included, in traversal order. -/
theorem Inspect_eq (h : GroupVisitor f g) (file : File) (s : σ) :
    Inspect file f s = runGroups g file.groups s := by
  simp only [Node.isGenDecl, Inspect, visit_other h, walkDoc_eq h, leaf_other h,
    walkDecls_eq h, andThen_ok_left, File.groups]

theorem runGroups_ok (k : GenDecl → σ → σ) (ds : List GenDecl) (s : σ) :
    runGroups (fun d s => Except.ok (k d s)) ds s = Except.ok (ds.foldl (fun s d => k d s) s) := by
  induction ds generalizing s with
  | nil => rfl
  | cons d ds ih => simp only [runGroups, andThen, List.foldl_cons, ih]

end Walk

theorem inspectTypeSpec_visitor_group {σ : Type} (fn : Classifier σ) :
    GroupVisitor (inspectTypeSpec.visitor fn)
      (fun d s => Except.ok (inspectTypeSpec.specs fn d.Specs s)) := by
  constructor
  · intro d s
    rfl
  · intro n s hn
    cases n <;> first | rfl | cases hn

/-- The declaration walker never panics: it folds the per-group loop over every
declaration group of the file. -/
theorem inspectTypeSpec_eq {σ : Type} (file : File) (fn : Classifier σ) (s : σ) :
    inspectTypeSpec file fn s =
      Except.ok (file.groups.foldl (fun s d => inspectTypeSpec.specs fn d.Specs s) s) := by
  rw [inspectTypeSpec, Inspect_eq (inspectTypeSpec_visitor_group fn), runGroups_ok]

theorem parseValues_visitor_group :
    GroupVisitor parseValues.visitor (fun d values => parseValues.specs d.Specs values) := by
  constructor
  · intro d s
    simp only [parseValues.visitor]
    cases parseValues.specs d.Specs s <;> rfl
  · intro n s hn
    cases n <;> first | rfl | cases hn

theorem parseValues_eq (file : File) :
    parseValues file =
      match runGroups (fun d values => parseValues.specs d.Specs values) file.groups [] with
      | .error p => .error p
      | .ok values => .ok (values, none) := by
  rw [parseValues, Inspect_eq parseValues_visitor_group]

/-- The record extractor returns every record collected by the walk and a nil error,
whatever happened during the walk. -/
theorem parseStruts_eq (env : Env) (file : File) :
    parseStruts env file =
      Except.ok ((file.groups.foldl
        (fun s d => inspectTypeSpec.specs (parseStruts.fn env) d.Specs s) ⟨[], none⟩).structs,
        none) := by
  rw [parseStruts, inspectTypeSpec_eq]
  rfl

theorem parseInterfaces_eq (env : Env) (file : File) :
    parseInterfaces env file =
      Except.ok ((file.groups.foldl
        (fun s d => inspectTypeSpec.specs (parseInterfaces.fn env) d.Specs s)
        ⟨[], none⟩).interfaces, none) := by
  rw [parseInterfaces, inspectTypeSpec_eq]
  rfl

/-! ## Counting lemmas -/

theorem parseStruts_specs_length (env : Env) (specs : List Spec) (vars : StrutsVars)
    (h : specs.all (Spec.fieldsExtract env) = true) :
    (inspectTypeSpec.specs (parseStruts.fn env) specs vars).structs.length =
      vars.structs.length + specs.countP Spec.isRecord := by
  induction specs generalizing vars with
  | nil => simp [inspectTypeSpec.specs]
  | cons spec rest ih =>
    simp only [List.all_cons, Bool.and_eq_true] at h
    obtain ⟨h1, h2⟩ := h
    cases spec with
    | ImportSpec s => simp [inspectTypeSpec.specs, Spec.isRecord, ih _ h2]
    | ValueSpec s => simp [inspectTypeSpec.specs, Spec.isRecord, ih _ h2]
    | TypeSpec t =>
      cases t with
      | mk doc name typ =>
        cases typ with
        | none => simp [inspectTypeSpec.specs, TypeSpec.Typ, Spec.isRecord, ih _ h2]
        | some e =>
          cases e with
          | StructType fl =>
            cases fl with
            | none =>
              simp [inspectTypeSpec.specs, TypeSpec.Typ, Spec.isRecord, parseStruts.fn, ih _ h2]
              omega
            | some fl =>
              simp only [Spec.fieldsExtract, Option.isNone_iff_eq_none] at h1
              rcases hpf : parseStructFields env name fl with ⟨fs, e⟩
              rw [hpf] at h1
              simp only at h1
              subst h1
              simp [inspectTypeSpec.specs, TypeSpec.Typ, TypeSpec.Name, Spec.isRecord,
                parseStruts.fn, hpf, ih _ h2]
              omega
          | _ => simp [inspectTypeSpec.specs, TypeSpec.Typ, Spec.isRecord, parseStruts.fn, ih _ h2]

theorem parseInterfaces_specs_length (env : Env) (specs : List Spec) (vars : InterfacesVars)
    (h : specs.all (Spec.methodsExtract env) = true) :
    (inspectTypeSpec.specs (parseInterfaces.fn env) specs vars).interfaces.length =
      vars.interfaces.length + specs.countP Spec.isInterface := by
  induction specs generalizing vars with
  | nil => simp [inspectTypeSpec.specs]
  | cons spec rest ih =>
    simp only [List.all_cons, Bool.and_eq_true] at h
    obtain ⟨h1, h2⟩ := h
    cases spec with
    | ImportSpec s => simp [inspectTypeSpec.specs, Spec.isInterface, ih _ h2]
    | ValueSpec s => simp [inspectTypeSpec.specs, Spec.isInterface, ih _ h2]
    | TypeSpec t =>
      cases t with
      | mk doc name typ =>
        cases typ with
        | none => simp [inspectTypeSpec.specs, TypeSpec.Typ, Spec.isInterface, ih _ h2]
        | some e =>
          cases e with
          | InterfaceType ml =>
            cases ml with
            | none =>
              simp [inspectTypeSpec.specs, TypeSpec.Typ, Spec.isInterface, parseInterfaces.fn,
                ih _ h2]
              omega
            | some ml =>
              simp only [Spec.methodsExtract, Option.isNone_iff_eq_none] at h1
              rcases hpf : parseInterfaceFunctions env ml with ⟨fs, e⟩
              rw [hpf] at h1
              simp only at h1
              subst h1
              simp [inspectTypeSpec.specs, TypeSpec.Typ, TypeSpec.Name, Spec.isInterface,
                parseInterfaces.fn, hpf, ih _ h2]
              omega
          | _ =>
            simp [inspectTypeSpec.specs, TypeSpec.Typ, Spec.isInterface, parseInterfaces.fn,
              ih _ h2]

theorem parseStruts_groups_length (env : Env) (gs : List GenDecl) (vars : StrutsVars)
    (h : (gs.all fun d => d.Specs.all (Spec.fieldsExtract env)) = true) :
    (gs.foldl (fun s d => inspectTypeSpec.specs (parseStruts.fn env) d.Specs s)
      vars).structs.length = vars.structs.length + countSpecs Spec.isRecord gs := by
  induction gs generalizing vars with
  | nil => simp [countSpecs]
  | cons d ds ih =>
    simp only [List.all_cons, Bool.and_eq_true] at h
    rw [List.foldl_cons, ih _ h.2, parseStruts_specs_length env _ _ h.1]
    simp only [countSpecs, List.map_cons, List.sum_cons]
    omega

theorem parseInterfaces_groups_length (env : Env) (gs : List GenDecl) (vars : InterfacesVars)
    (h : (gs.all fun d => d.Specs.all (Spec.methodsExtract env)) = true) :
    (gs.foldl (fun s d => inspectTypeSpec.specs (parseInterfaces.fn env) d.Specs s)
      vars).interfaces.length = vars.interfaces.length + countSpecs Spec.isInterface gs := by
  induction gs generalizing vars with
  | nil => simp [countSpecs]
  | cons d ds ih =>
    simp only [List.all_cons, Bool.and_eq_true] at h
    rw [List.foldl_cons, ih _ h.2, parseInterfaces_specs_length env _ _ h.1]
    simp only [countSpecs, List.map_cons, List.sum_cons]
    omega

theorem parseValues_specs_length (specs : List Spec) (values : List Value)
    (h : specs.all Spec.hasFirstPair = true) :
    ∃ values1, parseValues.specs specs values = Except.ok values1 ∧
      values1.length = values.length + specs.countP Spec.isLiteralValue := by
  induction specs generalizing values with
  | nil => exact ⟨values, rfl, by simp⟩
  | cons spec rest ih =>
    simp only [List.all_cons, Bool.and_eq_true] at h
    obtain ⟨h1, h2⟩ := h
    cases spec with
    | ImportSpec s => simpa [parseValues.specs, Spec.isLiteralValue] using ih values h2
    | TypeSpec s => simpa [parseValues.specs, Spec.isLiteralValue] using ih values h2
    | ValueSpec t =>
      cases t with
      | mk doc names typ vals =>
        cases names with
        | nil => simp [Spec.hasFirstPair] at h1
        | cons n ns =>
          cases vals with
          | nil => simp [Spec.hasFirstPair] at h1
          | cons v vs =>
            cases v with
            | BasicLit kind value =>
              obtain ⟨values1, e1, e2⟩ := ih (values ++
                [⟨n, docText doc, ToLower kind.String,
                  if ToLower kind.String = "string" ∧ value.length > 2 then
                    slice value 1 (value.length - 1) else value⟩]) h2
              refine ⟨values1, ?_, ?_⟩
              · simpa [parseValues.specs, index, ValueSpec.Names, ValueSpec.Values,
                  ValueSpec.Doc] using e1
              · simp [Spec.isLiteralValue, e2]
                omega
            | _ =>
              simpa [parseValues.specs, index, ValueSpec.Names, ValueSpec.Values,
                Spec.isLiteralValue] using ih values h2

theorem parseValues_groups_length (gs : List GenDecl) (values : List Value)
    (h : (gs.all fun d => d.Specs.all Spec.hasFirstPair) = true) :
    ∃ values1, runGroups (fun d values => parseValues.specs d.Specs values) gs values =
        Except.ok values1 ∧
      values1.length = values.length + countSpecs Spec.isLiteralValue gs := by
  induction gs generalizing values with
  | nil => exact ⟨values, rfl, by simp [countSpecs]⟩
  | cons d ds ih =>
    simp only [List.all_cons, Bool.and_eq_true] at h
    obtain ⟨v1, e1, l1⟩ := parseValues_specs_length d.Specs values h.1
    obtain ⟨v2, e2, l2⟩ := ih v1 h.2
    refine ⟨v2, ?_, ?_⟩
    · simp only [runGroups, andThen, e1, e2]
    · simp only [countSpecs, List.map_cons, List.sum_cons] at l2 ⊢
      omega

/-! ## The tag rewrite loop -/

/-- The raw text of a rewritten field is what the serializer returns for its decoded
`Tags`. -/
theorem rewriteTag_eq (env : Env) (v : StructField) (t : Tags) (h : v.Tags = some t) :
    tagsString env v.Tags = Except.ok (rewriteTag env v).Tag := by
  simp [tagsString, rewriteTag, h]

/-- A visitor that always returns true and writes nothing: the loop panics as soon as one
field has nil `Tags`. -/
theorem RangeFieldTags_loop_panics {σ : Type} (env : Env) (fn : TagVisitor σ)
    (htrue : ∀ t v a s, (fn t v a s).2 = true) (hkeep : ∀ t v a s, (fn t v a s).1.2 = v)
    (fields : List StructField) (s : σ) (h : ∃ v ∈ fields, v.Tags = none) :
    RangeFieldTags.loop env fn fields s = Except.error Panic.nilPointerDereference := by
  induction fields generalizing s with
  | nil => simp at h
  | cons v rest ih =>
    rcases hfn : fn v.Tags v v.Anonymous s with ⟨⟨s1, v1⟩, b⟩
    have hb : b = true := by simpa [hfn] using htrue v.Tags v v.Anonymous s
    have hv : v1 = v := by simpa [hfn] using hkeep v.Tags v v.Anonymous s
    subst hb hv
    cases hT : v1.Tags with
    | none =>
      simp only [RangeFieldTags.loop, hfn]
      simp [tagsString, hT]
    | some t =>
      have hrest : ∃ u ∈ rest, u.Tags = none := by
        obtain ⟨u, hu, hn⟩ := h
        rcases List.mem_cons.mp hu with e | e
        · subst e
          rw [hT] at hn
          cases hn
        · exact ⟨u, e, hn⟩
      simp only [RangeFieldTags.loop, hfn]
      simp [tagsString, hT, ih s1 hrest]

/-- A visitor that always returns true and writes nothing: when every field has decoded
`Tags`, the loop completes, the visitor state is the fold of its steps over all fields in
order, and every raw `Tag` is the serialization of the decoded `Tags`. -/
theorem RangeFieldTags_loop_completes {σ : Type} (env : Env) (step : σ → StructField → σ)
    (fields : List StructField) (s : σ) (h : ∀ v ∈ fields, v.Tags ≠ none) :
    RangeFieldTags.loop env (fun _ v _ s => ((step s v, v), true)) fields s =
      Except.ok (fields.foldl step s, fields.map (rewriteTag env)) := by
  induction fields generalizing s with
  | nil => rfl
  | cons v rest ih =>
    have hv := h v (List.mem_cons_self v rest)
    cases hT : v.Tags with
    | none => exact absurd hT hv
    | some t =>
      have hrest : ∀ u ∈ rest, u.Tags ≠ none := fun u hu => h u (List.mem_cons_of_mem v hu)
      simp [RangeFieldTags.loop, tagsString, hT, ih (step s v) hrest, rewriteTag]

/-- A visitor that writes nothing and whose result depends on the field only: when it
returns true on the fields of `pre`, all with decoded `Tags`, and false on `v`, the loop
invokes it on `pre` and `v` in order and on no field of `post`, rewrites the raw `Tag` of
the fields of `pre` and leaves `v` and `post` as they are. -/
theorem RangeFieldTags_loop_stops {σ : Type} (env : Env) (step : σ → StructField → σ)
    (p : StructField → Bool) (pre : List StructField) (v : StructField)
    (post : List StructField) (s : σ) (hpre : ∀ u ∈ pre, p u = true ∧ u.Tags ≠ none)
    (hv : p v = false) :
    RangeFieldTags.loop env (fun _ u _ s => ((step s u, u), p u)) (pre ++ v :: post) s =
      Except.ok ((pre ++ [v]).foldl step s, pre.map (rewriteTag env) ++ v :: post) := by
  induction pre generalizing s with
  | nil => simp [RangeFieldTags.loop, hv]
  | cons u rest ih =>
    obtain ⟨hu, hT⟩ := hpre u (List.mem_cons_self u rest)
    cases hT1 : u.Tags with
    | none => exact absurd hT1 hT
    | some t =>
      have hrest : ∀ w ∈ rest, p w = true ∧ w.Tags ≠ none :=
        fun w hw => hpre w (List.mem_cons_of_mem u hw)
      simp [RangeFieldTags.loop, hu, tagsString, hT1, ih (step s u) hrest, rewriteTag]

/-! ## Claims -/

/-- C1 (code defect). The record `A` of `badTagFile` has a field whose tag text fails
annotation decoding and the front end parses the source, yet `Parse` returns a nil error:
`return structs, nil` in `parseStruts` overwrites the captured error before the deferred
function tests it, so the error never reaches `ParseBytes`. -/
theorem C1_parse_nil_error_on_undecodable_tag :
    (structtag.Parse "bad").2 = some "bad syntax for struct tag pair" ∧
      (parseStructFields (envOf badTagFile) "A" badTagFields).2 ≠ none ∧
      (Parse (envOf badTagFile) "package p\n\ntype A struct \x7b\n\tX int `bad`\n\x7d\n").map
        (fun r => (r.1.Structs, r.2)) = Except.ok ([], none) := by
  decide

/-- C2 (code defect). Field extraction fails for the record `Bad` of `partialFile`, yet
`parseStruts` returns the records `Good` and `Last` declared before and after it, with a
nil error: the deferred reset to the empty sequence never runs. -/
theorem C2_parseStruts_returns_partial_records :
    (parseStructFields (envOf partialFile) "Bad" badTagFields).2 ≠ none ∧
      parseStruts (envOf partialFile) partialFile =
        Except.ok ([⟨"Good", "", [⟨"N", "", false, "int", "", none⟩]⟩,
          ⟨"Last", "", [⟨"M", "", false, "int", "", none⟩]⟩], none) := by
  decide

/-- C3, as stated, fails: `nestedTypeFile` has no top-level type declaration, and one
record and one interface are extracted from the declarations in the body of `f`. -/
theorem C3_counterexample_nested_type_declarations :
    nestedTypeFile.allSpecs (Spec.fieldsExtract (envOf nestedTypeFile)) = true ∧
      nestedTypeFile.allSpecs (Spec.methodsExtract (envOf nestedTypeFile)) = true ∧
      countSpecs Spec.isRecord nestedTypeFile.topLevelGroups = 0 ∧
      countSpecs Spec.isInterface nestedTypeFile.topLevelGroups = 0 ∧
      (parseStruts (envOf nestedTypeFile) nestedTypeFile).map (fun r => (r.1.length, r.2)) =
        Except.ok (1, none) ∧
      (parseInterfaces (envOf nestedTypeFile) nestedTypeFile).map
        (fun r => (r.1.length, r.2)) = Except.ok (1, none) := by
  decide

/-- C3 (amended). For every file in which field extraction succeeds for every record and
method extraction for every method set, the number of extracted Records equals the number
of type declaration entries of record shape in all declaration groups of the file, those
nested in function bodies included, and likewise the number of extracted Interfaces for
the entries of method-set shape. -/
theorem C3_counts_type_declarations_of_all_groups (env : Env) (file : File)
    (hrec : file.allSpecs (Spec.fieldsExtract env) = true)
    (hitf : file.allSpecs (Spec.methodsExtract env) = true) :
    (∃ structs, parseStruts env file = Except.ok (structs, none) ∧
        structs.length = countSpecs Spec.isRecord file.groups) ∧
      (∃ interfaces, parseInterfaces env file = Except.ok (interfaces, none) ∧
        interfaces.length = countSpecs Spec.isInterface file.groups) := by
  refine ⟨⟨_, parseStruts_eq env file, ?_⟩, ⟨_, parseInterfaces_eq env file, ?_⟩⟩
  · rw [parseStruts_groups_length env _ _ hrec]
    simp
  · rw [parseInterfaces_groups_length env _ _ hitf]
    simp

theorem C3_counts_type_declarations_of_all_groups_witness :
    testFile.allSpecs (Spec.fieldsExtract (envOf testFile)) = true ∧
      testFile.allSpecs (Spec.methodsExtract (envOf testFile)) = true ∧
      countSpecs Spec.isRecord testFile.groups = 1 ∧
      countSpecs Spec.isInterface testFile.groups = 1 ∧
      ((∃ structs, parseStruts (envOf testFile) testFile = Except.ok (structs, none) ∧
          structs.length = countSpecs Spec.isRecord testFile.groups) ∧
        (∃ interfaces, parseInterfaces (envOf testFile) testFile = Except.ok (interfaces, none) ∧
          interfaces.length = countSpecs Spec.isInterface testFile.groups)) :=
  ⟨by decide, by decide, by decide, by decide,
    C3_counts_type_declarations_of_all_groups (envOf testFile) testFile (by decide) (by decide)⟩

/-- C4, as stated, fails: `nestedValueFile` has no top-level constant or variable
declaration, and one Value is extracted from the declaration in the body of `f`. -/
theorem C4_counterexample_nested_value_declaration :
    countSpecs Spec.isLiteralValue nestedValueFile.topLevelGroups = 0 ∧
      parseValues nestedValueFile = Except.ok ([⟨"x", "", "int", "1"⟩], none) := by
  decide

/-- C4 (amended). For every file in which every constant or variable entry has a first
name and a first initializer, the number of extracted Values equals the number of constant
or variable entries whose first initializer is a literal expression in all declaration
groups of the file, those nested in function bodies included. -/
theorem C4_counts_literal_entries_of_all_groups (file : File)
    (h : file.allSpecs Spec.hasFirstPair = true) :
    ∃ values, parseValues file = Except.ok (values, none) ∧
      values.length = countSpecs Spec.isLiteralValue file.groups := by
  obtain ⟨values, e, l⟩ := parseValues_groups_length file.groups [] h
  refine ⟨values, ?_, ?_⟩
  · rw [parseValues_eq, e]
  · simpa using l

theorem C4_counts_literal_entries_of_all_groups_witness :
    testFile.allSpecs Spec.hasFirstPair = true ∧
      countSpecs Spec.isLiteralValue testFile.groups = 2 ∧
      ∃ values, parseValues testFile = Except.ok (values, none) ∧
        values.length = countSpecs Spec.isLiteralValue testFile.groups :=
  ⟨by decide, by decide, C4_counts_literal_entries_of_all_groups testFile (by decide)⟩

/-- C5 (code defect). On the tree of `var x int`, an entry with a declared name and no
initializer, `parseValues` does not skip the entry: the unguarded `t.Values[0]` panics with
an index out of range. -/
theorem C5_parseValues_panics_without_initializer :
    parseValues noInitializerFile = Except.error Panic.indexOutOfRange := by
  decide

theorem foldl_set_lookup {α : Type} (name : α → String) (l : List α) (m : GoMap α)
    (n : String) :
    (l.foldl (fun m x => m.set (name x) x) m) n =
      match lastNamed name l n with
      | some x => some x
      | none => m n := by
  induction l using List.reverseRecOn with
  | nil => rfl
  | append_singleton l x ih =>
    rw [List.foldl_append]
    simp only [List.foldl_cons, List.foldl_nil, GoMap.set, lastNamed, List.reverse_append,
      List.reverse_cons, List.reverse_nil, List.nil_append, List.singleton_append,
      List.find?_cons]
    by_cases hx : n = name x
    · simp [hx]
    · have hx1 : ¬ name x = n := fun e => hx e.symm
      simp only [hx, hx1, if_false, decide_False]
      exact ih

theorem init_lookup {α : Type} (name : α → String) (l : List α) (n : String) :
    (l.foldl (fun m x => m.set (name x) x) GoMap.empty) n = lastNamed name l n := by
  rw [foldl_set_lookup]
  cases lastNamed name l n <;> rfl

/-- C6 (code defect). For the aliased clause `import f "fmt"` the renderer prints the
whole clause, `f "fmt"`, and `str[1 : len(str)-1]` cuts the first character of the alias
and the closing quote: the extracted string is ` "fmt`, which still holds the opening
quote, whereas the import path without its quotes is `fmt`. -/
theorem C6_aliased_import_keeps_a_quote :
    printNode (Node.ImportSpec ⟨none, some "f", "\"fmt\"", none⟩) = Except.ok "f \"fmt\"" ∧
      sliceInner "\"fmt\"" = Except.ok "fmt" ∧
      parseImports (envOf aliasedImportFile) aliasedImportFile =
        Except.ok ([" \"fmt"], none) := by
  decide

/-- C7 (code defect). For `var s = ""` the captured Value has kind `string` and its
literal text is the source literal unchanged, both quote characters included: the guard
`len(val.Val) > 2` skips the literal of length two. -/
theorem C7_empty_string_literal_keeps_quotes :
    parseValues emptyStringFile = Except.ok ([⟨"s", "", "string", "\"\""⟩], none) ∧
      sliceInner "\"\"" = Except.ok "" := by
  decide

/-- C8. After a successful `Parse`, `GetStruct`, `GetInterface` and `GetValue` return, for
every name, the last element of `Structs`, `Interfaces` and `Values` with that name, and
nil when there is none; the three sequences are the outputs of the extractors, unchanged by
the construction of the maps. -/
theorem C8_lookup_returns_last_declared (env : Env) (code : String) (psr : Parser)
    (h : Parse env code = Except.ok (psr, none)) (n : String) :
    psr.GetStruct n = lastNamed Struct.Name psr.Structs n ∧
      psr.GetInterface n = lastNamed Interface.Name psr.Interfaces n ∧
      psr.GetValue n = lastNamed Value.Name psr.Values n ∧
      ∃ file, env.ParseFile code = Except.ok file ∧
        parseStruts env file = Except.ok (psr.Structs, none) ∧
        parseInterfaces env file = Except.ok (psr.Interfaces, none) ∧
        parseValues file = Except.ok (psr.Values, none) := by
  simp only [Parse, ParseBytes] at h
  split at h
  · simp at h
  · rename_i file hfile
    split at h
    · simp at h
    · simp at h
    · rename_i imports himports
      split at h
      · simp at h
      · simp at h
      · rename_i structs hstructs
        split at h
        · simp at h
        · simp at h
        · rename_i values hvalues
          split at h
          · simp at h
          · simp at h
          · rename_i interfaces hinterfaces
            simp only [Except.ok.injEq, Prod.mk.injEq, and_true] at h
            subst h
            refine ⟨?_, ?_, ?_, file, hfile, hstructs, hinterfaces, hvalues⟩
            · exact init_lookup Struct.Name structs n
            · exact init_lookup Interface.Name interfaces n
            · exact init_lookup Value.Name values n

theorem C8_lookup_returns_last_declared_witness :
    Parse (envOf duplicateNameFile) "" = Except.ok (duplicateNameParser, none) ∧
      duplicateNameParser.Values = [⟨"x", "", "int", "1"⟩, ⟨"x", "", "int", "2"⟩] ∧
      duplicateNameParser.GetValue "x" = some ⟨"x", "", "int", "2"⟩ ∧
      duplicateNameParser.GetValue "y" = none :=
  ⟨rfl, rfl,
    (C8_lookup_returns_last_declared (envOf duplicateNameFile) "" duplicateNameParser rfl
      "x").2.2.1.trans (by decide),
    (C8_lookup_returns_last_declared (envOf duplicateNameFile) "" duplicateNameParser rfl
      "y").2.2.1.trans (by decide)⟩

/-- C9 (code defect). `mixedTagsRecord` is extracted from `mixedTagsFile`; the visitor
`stopAtB` returns true on its first field and false, for the first time, on its second.
`RangeFieldTags` does not reach the second field: after the visit of the first field, which
has no tag and hence nil `Tags`, `v.Tags.String()` dereferences a nil pointer. -/
theorem C9_early_stop_unreached_after_untagged_field :
    parseStruts (envOf mixedTagsFile) mixedTagsFile = Except.ok ([mixedTagsRecord], none) ∧
      mixedTagsRecord.Fields.map (fun v => (stopAtB v.Tags v v.Anonymous []).2) =
        [true, false] ∧
      mixedTagsRecord.RangeFieldTags (envOf mixedTagsFile) stopAtB [] =
        Except.error Panic.nilPointerDereference := by
  decide

/-- C10 (code defect). `dogRecord` is the record extracted from the source of
`TestParse`; its field carries no annotation, so its `Tags` is nil. With a visitor that
always returns true, `RangeFieldTags` does not complete: `v.Tags.String()` dereferences a
nil pointer on the first field. -/
theorem C10_rewrite_panics_on_untagged_field :
    parseStruts (envOf testFile) testFile = Except.ok ([dogRecord], none) ∧
      dogRecord.RangeFieldTags (envOf testFile) visitAll [] =
        Except.error Panic.nilPointerDereference := by
  decide

/-! ## Field extraction lemmas -/

theorem parseStructFields_loop_pairs (env : Env) (l : List Field) (acc fs : List StructField)
    (h : parseStructFields.loop env l acc = (fs, none)) :
    ∃ new, fs = acc ++ new ∧
      List.Forall₂ (fun spec sf => parseStructFields.field env spec = Except.ok sf) l new := by
  induction l generalizing acc with
  | nil =>
    simp only [parseStructFields.loop, Prod.mk.injEq, and_true] at h
    exact ⟨[], by simp [h], List.Forall₂.nil⟩
  | cons spec rest ih =>
    simp only [parseStructFields.loop] at h
    cases hf : parseStructFields.field env spec with
    | error e => simp [hf] at h
    | ok sf =>
      simp only [hf] at h
      obtain ⟨new, e1, e2⟩ := ih _ h
      exact ⟨sf :: new, by simp [e1], List.Forall₂.cons hf e2⟩

/-- A successful field extraction pairs every entry of the list, in order, with the field
built from it. -/
theorem parseStructFields_pairs (env : Env) (structName : String) (fields : FieldList)
    (fs : List StructField) (h : parseStructFields env structName fields = (fs, none)) :
    List.Forall₂ (fun spec sf => parseStructFields.field env spec = Except.ok sf)
      fields.Lst fs := by
  obtain ⟨new, e1, e2⟩ := parseStructFields_loop_pairs env fields.Lst [] fs h
  simpa [e1] using e2

theorem parseStructFields_field_name (env : Env) (spec : Field) (sf : StructField)
    (h : parseStructFields.field env spec = Except.ok sf) :
    (sf.Anonymous = true ↔ spec.Names = []) ∧
      env.formatNode (Node.Expr spec.Typ) = Except.ok sf.Typ ∧
      (spec.Names = [] → sf.Name = sf.Typ) ∧
      (∀ n ns, spec.Names = n :: ns → sf.Name = n) := by
  cases spec with
  | mk doc names typ tag =>
    simp only [parseStructFields.field, Field.Names, Field.Typ, Field.Tag, Field.Doc,
      getCodeBlock] at h
    simp only [Field.Names, Field.Typ]
    cases hr : env.formatNode (Node.Expr typ) with
    | error e =>
      cases names <;> simp [hr] at h
    | ok text =>
      cases names with
      | nil =>
        simp only [hr] at h
        cases tag with
        | none =>
          simp at h
          subst h
          simp
        | some value =>
          simp only at h
          split at h
          · split at h
            · simp at h
            · simp at h
              subst h
              simp
          · simp at h
            subst h
            simp
      | cons n ns =>
        simp only [hr] at h
        cases tag with
        | none =>
          simp at h
          subst h
          simp
        | some value =>
          simp only at h
          split at h
          · split at h
            · simp at h
            · simp at h
              subst h
              simp
          · simp at h
            subst h
            simp

/-! ## Claims, continued -/

/-- C11. For every record field entry of a successful extraction, in order: the Anonymous
flag of the Field is true exactly when the entry has no identifier; the Type of the Field
is the rendered text of the type expression of the entry; the Name of an anonymous Field
equals its Type; the Name of a named Field is the first declared identifier. -/
theorem C11_field_name_and_type (env : Env) (structName : String) (fields : FieldList)
    (fs : List StructField) (h : parseStructFields env structName fields = (fs, none)) :
    List.Forall₂
      (fun spec sf =>
        (sf.Anonymous = true ↔ spec.Names = []) ∧
          env.formatNode (Node.Expr spec.Typ) = Except.ok sf.Typ ∧
          (spec.Names = [] → sf.Name = sf.Typ) ∧
          (∀ n ns, spec.Names = n :: ns → sf.Name = n))
      fields.Lst fs :=
  (parseStructFields_pairs env structName fields fs h).imp
    (fun {spec sf} hf => parseStructFields_field_name env spec sf hf)

theorem C11_field_name_and_type_witness :
    parseStructFields (envOf testFile) "S" embeddedFields = (embeddedStructFields, none) ∧
      embeddedStructFields.map (fun sf => (sf.Name, sf.Typ, sf.Anonymous)) =
        [("*Base", "*Base", true), ("X", "int", false), ("Z", "int", false)] ∧
      List.Forall₂
        (fun spec sf =>
          (sf.Anonymous = true ↔ spec.Names = []) ∧
            (envOf testFile).formatNode (Node.Expr spec.Typ) = Except.ok sf.Typ ∧
            (spec.Names = [] → sf.Name = sf.Typ) ∧
            (∀ n ns, spec.Names = n :: ns → sf.Name = n))
        embeddedFields.Lst embeddedStructFields :=
  ⟨by decide, by decide,
    C11_field_name_and_type (envOf testFile) "S" embeddedFields embeddedStructFields
      (by decide)⟩

theorem innerText_eq_empty_iff (value : String) : innerText value = "" ↔ ¬ value.length > 2 := by
  have hlen : value.length = value.data.length := rfl
  simp only [innerText, slice, String.ext_iff, hlen]
  show List.take (value.data.length - 1 - 1) (List.drop 1 value.data) = [] ↔ _
  rw [List.take_eq_nil_iff]
  constructor
  · rintro (h | h)
    · omega
    · have := congrArg List.length h
      simp at this
      omega
  · intro h
    left
    omega

theorem parseStructFields_field_tag (env : Env) (spec : Field) (sf : StructField)
    (h : parseStructFields.field env spec = Except.ok sf) :
    ((spec.Tag = none ∨ ∃ value, spec.Tag = some value ∧ innerText value = "") →
        sf.Tag = "" ∧ sf.Tags = none) ∧
      (∀ value, spec.Tag = some value → innerText value ≠ "" →
        sf.Tag = innerText value ∧ env.structtagParse (innerText value) = (sf.Tags, none)) := by
  cases spec with
  | mk doc names typ tag =>
    simp only [parseStructFields.field, Field.Names, Field.Typ, Field.Tag, Field.Doc] at h
    simp only [Field.Tag]
    split at h
    · simp at h
    · split at h
      · simp at h
      · cases tag with
        | none =>
          simp at h
          subst h
          simp
        | some value =>
          simp only at h
          by_cases hl : value.length > 2
          · simp only [hl, if_true] at h
            have hne : innerText value ≠ "" := by
              rw [Ne, innerText_eq_empty_iff]
              simpa using hl
            rcases hp : env.structtagParse (slice value 1 (value.length - 1)) with ⟨tags, e⟩
            rw [hp] at h
            cases e with
            | some e => simp at h
            | none =>
              simp at h
              subst h
              refine ⟨?_, ?_⟩
              · rintro (hn | ⟨value1, hv, he⟩)
                · cases hn
                · cases hv
                  exact absurd he hne
              · intro value1 hv _
                cases hv
                exact ⟨rfl, hp⟩
          · simp only [hl, if_false] at h
            have he : innerText value = "" := (innerText_eq_empty_iff value).mpr hl
            simp at h
            subst h
            simp [he]

/-- C16. For every Field of a successful record extraction, in order: when the entry has
no tag literal, or the text of its tag literal between the two delimiters is empty, the raw
Tag is empty and the decoded Tags are absent; otherwise the raw Tag is that text and the
decoded Tags are what the codec returns, without error, for exactly that text. -/
theorem C16_field_tag_and_tags (env : Env) (structName : String) (fields : FieldList)
    (fs : List StructField) (h : parseStructFields env structName fields = (fs, none)) :
    List.Forall₂
      (fun spec sf =>
        ((spec.Tag = none ∨ ∃ value, spec.Tag = some value ∧ innerText value = "") →
            sf.Tag = "" ∧ sf.Tags = none) ∧
          (∀ value, spec.Tag = some value → innerText value ≠ "" →
            sf.Tag = innerText value ∧ env.structtagParse (innerText value) = (sf.Tags, none)))
      fields.Lst fs :=
  (parseStructFields_pairs env structName fields fs h).imp
    (fun {spec sf} hf => parseStructFields_field_tag env spec sf hf)

theorem C16_field_tag_and_tags_witness :
    parseStructFields (envOf testFile) "S" embeddedFields = (embeddedStructFields, none) ∧
      embeddedStructFields.map (fun sf => (sf.Tag, sf.Tags)) =
        [("", none), ("json:\"x\"", some ⟨[⟨"json", "x", []⟩]⟩), ("", none)] ∧
      List.Forall₂
        (fun spec sf =>
          ((spec.Tag = none ∨ ∃ value, spec.Tag = some value ∧ innerText value = "") →
              sf.Tag = "" ∧ sf.Tags = none) ∧
            (∀ value, spec.Tag = some value → innerText value ≠ "" →
              sf.Tag = innerText value ∧
                (envOf testFile).structtagParse (innerText value) = (sf.Tags, none)))
        embeddedFields.Lst embeddedStructFields :=
  ⟨by decide, by decide,
    C16_field_tag_and_tags (envOf testFile) "S" embeddedFields embeddedStructFields
      (by decide)⟩

/-- The field built from an entry does not depend on the names after the first. -/
theorem parseStructFields_field_first_name (env : Env) (doc : Option CommentGroup) (n : String)
    (ns : List String) (typ : Expr) (tag : Option String) :
    parseStructFields.field env (Field.mk doc (n :: ns) typ tag) =
      parseStructFields.field env (Field.mk doc [n] typ tag) := by
  rfl

/-- C18. A successful field extraction yields exactly one Field per field entry, whatever
the number of names the entries declare; an entry declaring several names yields the Field
of the entry declaring the first name only, named by that first name, so that the other
names occur nowhere in the output. -/
theorem C18_one_field_per_entry (env : Env) (structName : String) (fields : FieldList)
    (fs : List StructField) (h : parseStructFields env structName fields = (fs, none)) :
    fs.length = fields.Lst.length ∧
      List.Forall₂
        (fun spec sf => ∀ doc n ns typ tag, spec = Field.mk doc (n :: ns) typ tag →
          sf.Name = n ∧ parseStructFields.field env (Field.mk doc [n] typ tag) = Except.ok sf)
        fields.Lst fs := by
  have hp := parseStructFields_pairs env structName fields fs h
  refine ⟨hp.length_eq.symm, hp.imp ?_⟩
  intro spec sf hf doc n ns typ tag e
  subst e
  refine ⟨(parseStructFields_field_name env _ sf hf).2.2.2 n ns rfl, ?_⟩
  rw [← parseStructFields_field_first_name]
  exact hf

theorem C18_one_field_per_entry_witness :
    parseStructFields (envOf testFile) "S" embeddedFields = (embeddedStructFields, none) ∧
      embeddedStructFields.map (fun sf => sf.Name) = ["*Base", "X", "Z"] ∧
      embeddedFields.Lst.map (fun spec => spec.Names) = [[], ["X", "Y"], ["Z"]] ∧
      (embeddedStructFields.length = embeddedFields.Lst.length ∧
        List.Forall₂
          (fun spec sf => ∀ doc n ns typ tag, spec = Field.mk doc (n :: ns) typ tag →
            sf.Name = n ∧
              parseStructFields.field (envOf testFile) (Field.mk doc [n] typ tag) =
                Except.ok sf)
          embeddedFields.Lst embeddedStructFields) :=
  ⟨by decide, by decide, by decide,
    C18_one_field_per_entry (envOf testFile) "S" embeddedFields embeddedStructFields
      (by decide)⟩

/-- C12 (code defect). In `readWriterFile` the method list of `ReadWriter` starts with the
embedded interface reference `Reader`; its name is rendered, but since its type expression
is not function-shaped the entry is dropped by the `default: continue` of the loop: the
extracted Functions hold the method `Write` only, and no Function is anonymous. -/
theorem C12_embedded_interface_is_dropped :
    printNode (Node.Expr (Expr.Ident "Reader")) = Except.ok "Reader" ∧
      parseInterfaces (envOf readWriterFile) readWriterFile =
        Except.ok ([⟨"ReadWriter", "", [⟨"Write", "", false, [], []⟩]⟩], none) := by
  decide

/-- C13. For every parameter or result list, `parseFunctionFields` returns, in list order,
the identifier of every entry whose type expression is a bare identifier or a pointer to a
bare identifier, one string per entry, and nothing for the other entries; an absent or
empty list gives an empty result, so a method without parameters and results has empty
input and return lists. -/
theorem C13_parseFunctionFields_captures_identifiers :
    (∀ list : List Field, parseFunctionFields list = list.filterMap capturedName) ∧
      parseFunctionFieldsOpt none = [] ∧
      parseFunctionFieldsOpt (some (FieldList.mk [])) = [] ∧
      (∀ (env : Env) (doc : Option CommentGroup) (name : String) (names : List String)
        (tag : Option String),
        parseInterfaceFunctions env
            (FieldList.mk [Field.mk doc (name :: names) (Expr.FuncType (some (FieldList.mk []))
              none) tag]) =
          ([⟨name, docText doc, false, [], []⟩], none)) ∧
      parseFunctionFields mixedParams = ["int", "T"] := by
  refine ⟨?_, rfl, rfl, ?_, by decide⟩
  · intro list
    induction list with
    | nil => rfl
    | cons t rest ih =>
      cases t with
      | mk doc names typ tag =>
        cases typ with
        | Ident name => simp [parseFunctionFields, capturedName, Field.Typ, ih]
        | StarExpr x =>
          cases x <;> simp [parseFunctionFields, capturedName, Field.Typ, ih]
        | _ => simp [parseFunctionFields, capturedName, Field.Typ, ih]
  · intro env doc name names tag
    rfl

/-! ## Provenance of the extracted entities -/

theorem parseValues_specs_cons (doc : Option CommentGroup) (name : String)
    (names : List String) (typ : Option Expr) (init : Expr) (inits : List Expr)
    (rest : List Spec) (values : List Value) :
    parseValues.specs (Spec.ValueSpec (ValueSpec.mk doc (name :: names) typ (init :: inits))
        :: rest) values =
      parseValues.specs rest (values ++ valuesOfFirstPair doc name init) := by
  cases init <;>
    simp [parseValues.specs, index, ValueSpec.Names, ValueSpec.Values, ValueSpec.Doc,
      valuesOfFirstPair, innerText]

theorem parseValues_specs_mem (specs : List Spec) (values values1 : List Value)
    (h : parseValues.specs specs values = Except.ok values1) (v : Value) (hv : v ∈ values1) :
    v ∈ values ∨ ∃ doc name names typ init inits,
      Spec.ValueSpec (ValueSpec.mk doc (name :: names) typ (init :: inits)) ∈ specs ∧
        v ∈ valuesOfFirstPair doc name init := by
  induction specs generalizing values with
  | nil =>
    simp only [parseValues.specs, Except.ok.injEq] at h
    subst h
    exact Or.inl hv
  | cons spec rest ih =>
    cases spec with
    | ImportSpec s =>
      simp only [parseValues.specs] at h
      rcases ih values h with h1 | ⟨doc, name, names, typ, init, inits, hm, hx⟩
      · exact Or.inl h1
      · exact Or.inr ⟨doc, name, names, typ, init, inits, List.mem_cons_of_mem _ hm, hx⟩
    | TypeSpec s =>
      simp only [parseValues.specs] at h
      rcases ih values h with h1 | ⟨doc, name, names, typ, init, inits, hm, hx⟩
      · exact Or.inl h1
      · exact Or.inr ⟨doc, name, names, typ, init, inits, List.mem_cons_of_mem _ hm, hx⟩
    | ValueSpec t =>
      cases t with
      | mk doc names typ vals =>
        cases names with
        | nil => simp [parseValues.specs, index, ValueSpec.Names] at h
        | cons n ns =>
          cases vals with
          | nil => simp [parseValues.specs, index, ValueSpec.Names, ValueSpec.Values] at h
          | cons init inits =>
            rw [parseValues_specs_cons] at h
            rcases ih _ h with h1 | ⟨doc1, name, names, typ1, init1, inits1, hm, hx⟩
            · rcases List.mem_append.mp h1 with h2 | h2
              · exact Or.inl h2
              · exact Or.inr ⟨doc, n, ns, typ, init, inits, List.mem_cons_self _ _, h2⟩
            · exact Or.inr
                ⟨doc1, name, names, typ1, init1, inits1, List.mem_cons_of_mem _ hm, hx⟩

theorem parseValues_groups_mem (gs : List GenDecl) (values values1 : List Value)
    (h : runGroups (fun d values => parseValues.specs d.Specs values) gs values =
      Except.ok values1) (v : Value) (hv : v ∈ values1) :
    v ∈ values ∨ ∃ d ∈ gs, ∃ doc name names typ init inits,
      Spec.ValueSpec (ValueSpec.mk doc (name :: names) typ (init :: inits)) ∈ d.Specs ∧
        v ∈ valuesOfFirstPair doc name init := by
  induction gs generalizing values with
  | nil =>
    simp only [runGroups, Except.ok.injEq] at h
    subst h
    exact Or.inl hv
  | cons d ds ih =>
    simp only [runGroups, andThen] at h
    cases h1 : parseValues.specs d.Specs values with
    | error p => simp [h1] at h
    | ok values2 =>
      simp only [h1] at h
      rcases ih values2 h with h2 | ⟨d1, hd, rest⟩
      · rcases parseValues_specs_mem d.Specs values values2 h1 v h2 with h3 | h3
        · exact Or.inl h3
        · exact Or.inr ⟨d, List.mem_cons_self _ _, h3⟩
      · exact Or.inr ⟨d1, List.mem_cons_of_mem _ hd, rest⟩

/-- Every Value that `parseValues` returns comes from the first name and the first
initializer of a constant or variable entry of some declaration group of the file. -/
theorem parseValues_mem (file : File) (values : List Value) (e : Err)
    (h : parseValues file = Except.ok (values, e)) (v : Value) (hv : v ∈ values) :
    ∃ d ∈ file.groups, ∃ doc name names typ init inits,
      Spec.ValueSpec (ValueSpec.mk doc (name :: names) typ (init :: inits)) ∈ d.Specs ∧
        v ∈ valuesOfFirstPair doc name init := by
  rw [parseValues_eq] at h
  cases h1 : runGroups (fun d values => parseValues.specs d.Specs values) file.groups [] with
  | error p => simp [h1] at h
  | ok values2 =>
    simp only [h1, Except.ok.injEq, Prod.mk.injEq] at h
    obtain ⟨h2, _⟩ := h
    subst h2
    rcases parseValues_groups_mem file.groups [] values2 h1 v hv with h3 | h3
    · simp at h3
    · exact h3

theorem parseStruts_specs_mem (env : Env) (specs : List Spec) (vars : StrutsVars)
    (st : Struct)
    (h : st ∈ (inspectTypeSpec.specs (parseStruts.fn env) specs vars).structs) :
    st ∈ vars.structs ∨
      ∃ t, Spec.TypeSpec t ∈ specs ∧ st.Name = t.Name ∧ st.Doc = docText t.Doc := by
  induction specs generalizing vars with
  | nil => exact Or.inl h
  | cons spec rest ih =>
    have lift : (st ∈ vars.structs ∨
          ∃ t, Spec.TypeSpec t ∈ rest ∧ st.Name = t.Name ∧ st.Doc = docText t.Doc) →
        (st ∈ vars.structs ∨ ∃ t, Spec.TypeSpec t ∈ spec :: rest ∧ st.Name = t.Name ∧
          st.Doc = docText t.Doc) := by
      rintro (h1 | ⟨t, ht, hn⟩)
      · exact Or.inl h1
      · exact Or.inr ⟨t, List.mem_cons_of_mem _ ht, hn⟩
    cases spec with
    | ImportSpec s => exact lift (ih vars (by simpa [inspectTypeSpec.specs] using h))
    | ValueSpec s => exact lift (ih vars (by simpa [inspectTypeSpec.specs] using h))
    | TypeSpec t =>
      cases t with
      | mk doc name typ =>
        cases typ with
        | none => exact lift (ih vars (by simpa [inspectTypeSpec.specs, TypeSpec.Typ] using h))
        | some e =>
          cases e with
          | StructType fl =>
            cases fl with
            | none =>
              simp only [inspectTypeSpec.specs, TypeSpec.Typ, parseStruts.fn] at h
              rcases ih _ h with h1 | ⟨t, ht, hn⟩
              · rcases List.mem_append.mp h1 with h2 | h2
                · exact Or.inl h2
                · simp only [List.mem_singleton] at h2
                  subst h2
                  exact Or.inr ⟨_, List.mem_cons_self _ _, rfl, rfl⟩
              · exact Or.inr ⟨t, List.mem_cons_of_mem _ ht, hn⟩
            | some fl =>
              simp only [inspectTypeSpec.specs, TypeSpec.Typ, parseStruts.fn] at h
              rcases hpf : parseStructFields env (TypeSpec.mk doc name
                (some (Expr.StructType (some fl)))).Name fl with ⟨fs, e⟩
              rw [hpf] at h
              cases e with
              | some e => exact Or.inl (by simpa using h)
              | none =>
                simp only at h
                rcases ih _ h with h1 | ⟨t, ht, hn⟩
                · rcases List.mem_append.mp h1 with h2 | h2
                  · exact Or.inl h2
                  · simp only [List.mem_singleton] at h2
                    subst h2
                    exact Or.inr ⟨_, List.mem_cons_self _ _, rfl, rfl⟩
                · exact Or.inr ⟨t, List.mem_cons_of_mem _ ht, hn⟩
          | _ =>
            exact lift (ih vars
              (by simpa [inspectTypeSpec.specs, TypeSpec.Typ, parseStruts.fn] using h))

theorem parseInterfaces_specs_mem (env : Env) (specs : List Spec) (vars : InterfacesVars)
    (st : Interface)
    (h : st ∈ (inspectTypeSpec.specs (parseInterfaces.fn env) specs vars).interfaces) :
    st ∈ vars.interfaces ∨
      ∃ t, Spec.TypeSpec t ∈ specs ∧ st.Name = t.Name ∧ st.Doc = docText t.Doc := by
  induction specs generalizing vars with
  | nil => exact Or.inl h
  | cons spec rest ih =>
    have lift : (st ∈ vars.interfaces ∨
          ∃ t, Spec.TypeSpec t ∈ rest ∧ st.Name = t.Name ∧ st.Doc = docText t.Doc) →
        (st ∈ vars.interfaces ∨ ∃ t, Spec.TypeSpec t ∈ spec :: rest ∧ st.Name = t.Name ∧
          st.Doc = docText t.Doc) := by
      rintro (h1 | ⟨t, ht, hn⟩)
      · exact Or.inl h1
      · exact Or.inr ⟨t, List.mem_cons_of_mem _ ht, hn⟩
    cases spec with
    | ImportSpec s => exact lift (ih vars (by simpa [inspectTypeSpec.specs] using h))
    | ValueSpec s => exact lift (ih vars (by simpa [inspectTypeSpec.specs] using h))
    | TypeSpec t =>
      cases t with
      | mk doc name typ =>
        cases typ with
        | none => exact lift (ih vars (by simpa [inspectTypeSpec.specs, TypeSpec.Typ] using h))
        | some e =>
          cases e with
          | InterfaceType fl =>
            cases fl with
            | none =>
              simp only [inspectTypeSpec.specs, TypeSpec.Typ, parseInterfaces.fn] at h
              rcases ih _ h with h1 | ⟨t, ht, hn⟩
              · rcases List.mem_append.mp h1 with h2 | h2
                · exact Or.inl h2
                · simp only [List.mem_singleton] at h2
                  subst h2
                  exact Or.inr ⟨_, List.mem_cons_self _ _, rfl, rfl⟩
              · exact Or.inr ⟨t, List.mem_cons_of_mem _ ht, hn⟩
            | some fl =>
              simp only [inspectTypeSpec.specs, TypeSpec.Typ, parseInterfaces.fn] at h
              rcases hpf : parseInterfaceFunctions env fl with ⟨fs, e⟩
              rw [hpf] at h
              cases e with
              | some e => exact Or.inl (by simpa using h)
              | none =>
                simp only at h
                rcases ih _ h with h1 | ⟨t, ht, hn⟩
                · rcases List.mem_append.mp h1 with h2 | h2
                  · exact Or.inl h2
                  · simp only [List.mem_singleton] at h2
                    subst h2
                    exact Or.inr ⟨_, List.mem_cons_self _ _, rfl, rfl⟩
                · exact Or.inr ⟨t, List.mem_cons_of_mem _ ht, hn⟩
          | _ =>
            exact lift (ih vars
              (by simpa [inspectTypeSpec.specs, TypeSpec.Typ, parseInterfaces.fn] using h))

theorem parseStruts_groups_mem (env : Env) (gs : List GenDecl) (vars : StrutsVars)
    (st : Struct)
    (h : st ∈ (gs.foldl (fun s d => inspectTypeSpec.specs (parseStruts.fn env) d.Specs s)
      vars).structs) :
    st ∈ vars.structs ∨ ∃ d ∈ gs,
      ∃ t, Spec.TypeSpec t ∈ d.Specs ∧ st.Name = t.Name ∧ st.Doc = docText t.Doc := by
  induction gs generalizing vars with
  | nil => exact Or.inl h
  | cons d ds ih =>
    rcases ih _ h with h1 | ⟨d1, hd, rest⟩
    · rcases parseStruts_specs_mem env d.Specs vars st h1 with h2 | h2
      · exact Or.inl h2
      · exact Or.inr ⟨d, List.mem_cons_self _ _, h2⟩
    · exact Or.inr ⟨d1, List.mem_cons_of_mem _ hd, rest⟩

theorem parseInterfaces_groups_mem (env : Env) (gs : List GenDecl) (vars : InterfacesVars)
    (st : Interface)
    (h : st ∈ (gs.foldl (fun s d => inspectTypeSpec.specs (parseInterfaces.fn env) d.Specs s)
      vars).interfaces) :
    st ∈ vars.interfaces ∨ ∃ d ∈ gs,
      ∃ t, Spec.TypeSpec t ∈ d.Specs ∧ st.Name = t.Name ∧ st.Doc = docText t.Doc := by
  induction gs generalizing vars with
  | nil => exact Or.inl h
  | cons d ds ih =>
    rcases ih _ h with h1 | ⟨d1, hd, rest⟩
    · rcases parseInterfaces_specs_mem env d.Specs vars st h1 with h2 | h2
      · exact Or.inl h2
      · exact Or.inr ⟨d, List.mem_cons_self _ _, h2⟩
    · exact Or.inr ⟨d1, List.mem_cons_of_mem _ hd, rest⟩

theorem valuesOfFirstPair_kind (doc : Option CommentGroup) (name : String) (init : Expr)
    (v : Value) (h : v ∈ valuesOfFirstPair doc name init) :
    v.Doc = docText doc ∧ v.Name = name ∧
      ∃ kind value, init = Expr.BasicLit kind value ∧ v.Kind = ToLower kind.String := by
  cases init with
  | BasicLit kind value =>
    simp only [valuesOfFirstPair, List.mem_singleton] at h
    subst h
    exact ⟨rfl, rfl, kind, value, rfl, rfl⟩
  | _ => simp [valuesOfFirstPair] at h

/-- C15, as stated, fails: for `var z = 2i` the Kind of the captured Value is `imag`, the
lower-cased name of the token `IMAG`, which is not in the vocabulary of the claim. -/
theorem C15_counterexample_imaginary_kind :
    parseValues imaginaryFile = Except.ok ([⟨"z", "", "imag", "2i"⟩], none) ∧
      "imag" ∉ ["string", "int", "float", "char", "imaginary"] := by
  decide

/-- C17. The declaration walker never reports failure: it runs its per-group loop on every
declaration group of the file in turn, each from the state the previous group left,
whatever the callback returned there. Inside a group, an entry with a type on which the
callback returns an error ends the loop of that group, so that no later entry of the group
is passed to the callback; an entry on which it returns no error, matched or not, is
followed by the rest of the group. -/
theorem C17_walker_error_ends_group_only {σ : Type} (fn : Classifier σ) (file : File) (s : σ) :
    inspectTypeSpec file fn s =
        Except.ok (file.groups.foldl (fun s d => inspectTypeSpec.specs fn d.Specs s) s) ∧
      (∀ (t : TypeSpec) (rest : List Spec) (s1 : σ), t.Typ ≠ none → (fn t s1).2.2 ≠ none →
        inspectTypeSpec.specs fn (Spec.TypeSpec t :: rest) s1 = (fn t s1).1) ∧
      (∀ (t : TypeSpec) (rest : List Spec) (s1 : σ), t.Typ ≠ none → (fn t s1).2.2 = none →
        inspectTypeSpec.specs fn (Spec.TypeSpec t :: rest) s1 =
          inspectTypeSpec.specs fn rest (fn t s1).1) := by
  refine ⟨inspectTypeSpec_eq file fn s, ?_, ?_⟩
  · intro t rest s1 ht he
    cases hT : t.Typ with
    | none => exact absurd hT ht
    | some e =>
      rcases hfn : fn t s1 with ⟨s2, ok, err⟩
      rw [hfn] at he
      cases err with
      | none => exact absurd rfl he
      | some msg => simp [inspectTypeSpec.specs, hT, hfn]
  · intro t rest s1 ht he
    cases hT : t.Typ with
    | none => exact absurd hT ht
    | some e =>
      rcases hfn : fn t s1 with ⟨s2, ok, err⟩
      rw [hfn] at he
      simp only at he
      subst he
      cases ok <;> simp [inspectTypeSpec.specs, hT, hfn]

theorem C17_walker_error_ends_group_only_witness :
    (logNames (TypeSpec.mk none "Bad" (some (Expr.Ident "int"))) ["A", "Skip"]).2 =
        (false, some "bad") ∧
      (logNames (TypeSpec.mk none "Skip" (some (Expr.Ident "int"))) ["A"]).2 = (false, none) ∧
      inspectTypeSpec twoGroupsFile logNames [] = Except.ok ["A", "Skip", "Bad", "D"] :=
  ⟨by decide, by decide,
    (C17_walker_error_ends_group_only logNames twoGroupsFile []).1.trans (by decide)⟩

/-! ## Exact outputs of the extractors -/

theorem parseValues_specs_exact (specs : List Spec) (values values1 : List Value)
    (h : parseValues.specs specs values = Except.ok values1) :
    values1 = values ++ specs.flatMap Spec.firstPairValues := by
  induction specs generalizing values with
  | nil =>
    simp only [parseValues.specs, Except.ok.injEq] at h
    simp [h]
  | cons spec rest ih =>
    cases spec with
    | ImportSpec s =>
      simp only [parseValues.specs] at h
      simpa [List.flatMap_cons, Spec.firstPairValues] using ih values h
    | TypeSpec s =>
      simp only [parseValues.specs] at h
      simpa [List.flatMap_cons, Spec.firstPairValues] using ih values h
    | ValueSpec t =>
      cases t with
      | mk doc names typ vals =>
        cases names with
        | nil => simp [parseValues.specs, index, ValueSpec.Names] at h
        | cons n ns =>
          cases vals with
          | nil => simp [parseValues.specs, index, ValueSpec.Names, ValueSpec.Values] at h
          | cons init inits =>
            rw [parseValues_specs_cons] at h
            simpa [List.flatMap_cons, Spec.firstPairValues] using ih _ h

theorem parseValues_specs_total (specs : List Spec) (values : List Value)
    (h : specs.all Spec.hasFirstPair = true) :
    parseValues.specs specs values =
      Except.ok (values ++ specs.flatMap Spec.firstPairValues) := by
  obtain ⟨values1, e, _⟩ := parseValues_specs_length specs values h
  rw [e, parseValues_specs_exact specs values values1 e]

theorem parseValues_groups_exact (gs : List GenDecl) (values values1 : List Value)
    (h : runGroups (fun d values => parseValues.specs d.Specs values) gs values =
      Except.ok values1) :
    values1 = values ++ gs.flatMap fun d => d.Specs.flatMap Spec.firstPairValues := by
  induction gs generalizing values with
  | nil =>
    simp only [runGroups, Except.ok.injEq] at h
    simp [h]
  | cons d ds ih =>
    simp only [runGroups, andThen] at h
    cases h1 : parseValues.specs d.Specs values with
    | error p => simp [h1] at h
    | ok values2 =>
      simp only [h1] at h
      rw [ih values2 h, parseValues_specs_exact d.Specs values values2 h1]
      simp [List.flatMap_cons]

/-- When `parseValues` returns, its Values are those of the first pairs of the entries of
all declaration groups, in traversal order. -/
theorem parseValues_exact (file : File) (values : List Value) (e : Err)
    (h : parseValues file = Except.ok (values, e)) :
    values = file.groups.flatMap fun d => d.Specs.flatMap Spec.firstPairValues := by
  rw [parseValues_eq] at h
  cases h1 : runGroups (fun d values => parseValues.specs d.Specs values) file.groups [] with
  | error p => simp [h1] at h
  | ok values2 =>
    simp only [h1, Except.ok.injEq, Prod.mk.injEq] at h
    rw [← h.1]
    simpa using parseValues_groups_exact file.groups [] values2 h1

theorem firstPairValues_yields (specs : List Spec) :
    List.Forall₂ ValueSpec.yields (specs.filterMap literalEntry)
      (specs.flatMap Spec.firstPairValues) := by
  induction specs with
  | nil => exact List.Forall₂.nil
  | cons spec rest ih =>
    rw [List.flatMap_cons]
    cases spec with
    | ImportSpec s => simpa [literalEntry, Spec.firstPairValues] using ih
    | TypeSpec s => simpa [literalEntry, Spec.firstPairValues] using ih
    | ValueSpec t =>
      cases t with
      | mk doc names typ vals =>
        cases names with
        | nil => simpa [literalEntry, Spec.firstPairValues] using ih
        | cons n ns =>
          cases vals with
          | nil => simpa [literalEntry, Spec.firstPairValues] using ih
          | cons init inits =>
            cases init with
            | BasicLit kind value =>
              simp only [List.filterMap_cons, literalEntry, Spec.firstPairValues,
                valuesOfFirstPair, List.singleton_append]
              exact List.Forall₂.cons ⟨doc, n, ns, typ, kind, value, inits, rfl, rfl⟩ ih
            | _ => simpa [literalEntry, Spec.firstPairValues, valuesOfFirstPair] using ih

theorem forallPairs_append {α β : Type} {R : α → β → Prop} {l1 l3 : List α} {l2 l4 : List β}
    (h1 : List.Forall₂ R l1 l2) (h2 : List.Forall₂ R l3 l4) :
    List.Forall₂ R (l1 ++ l3) (l2 ++ l4) := by
  induction h1 with
  | nil => exact h2
  | cons h _ ih => exact List.Forall₂.cons h ih

theorem firstPairValues_groups_yields (gs : List GenDecl) :
    List.Forall₂ ValueSpec.yields (gs.flatMap fun d => d.Specs.filterMap literalEntry)
      (gs.flatMap fun d => d.Specs.flatMap Spec.firstPairValues) := by
  induction gs with
  | nil => exact List.Forall₂.nil
  | cons d ds ih =>
    rw [List.flatMap_cons, List.flatMap_cons]
    exact forallPairs_append (firstPairValues_yields d.Specs) ih

/-- When `parseValues` returns, its Values are, position by position, those built from the
constant and variable entries of the file with a literal first initializer. -/
theorem parseValues_yields (file : File) (values : List Value) (e : Err)
    (h : parseValues file = Except.ok (values, e)) :
    List.Forall₂ ValueSpec.yields (allLiteralEntries file) values := by
  rw [parseValues_exact file values e h]
  exact firstPairValues_groups_yields file.groups

theorem parseStruts_specs_exact (env : Env) (specs : List Spec) (vars : StrutsVars) :
    (inspectTypeSpec.specs (parseStruts.fn env) specs vars).structs =
      vars.structs ++ (recordEntries env specs).map
        (fun t => ⟨t.Name, docText t.Doc, recordFields env t⟩) := by
  induction specs generalizing vars with
  | nil => simp [inspectTypeSpec.specs, recordEntries]
  | cons spec rest ih =>
    cases spec with
    | ImportSpec s => simpa [inspectTypeSpec.specs, recordEntries] using ih vars
    | ValueSpec s => simpa [inspectTypeSpec.specs, recordEntries] using ih vars
    | TypeSpec t =>
      cases t with
      | mk doc name typ =>
        cases typ with
        | none => simpa [inspectTypeSpec.specs, recordEntries, TypeSpec.Typ] using ih vars
        | some e =>
          cases e with
          | StructType fl =>
            cases fl with
            | none =>
              simp only [inspectTypeSpec.specs, TypeSpec.Typ, parseStruts.fn, recordEntries]
              rw [ih]
              simp [recordFields, TypeSpec.Typ, TypeSpec.Name, TypeSpec.Doc]
            | some fl =>
              simp only [inspectTypeSpec.specs, TypeSpec.Typ, parseStruts.fn, recordEntries,
                TypeSpec.Name]
              rcases hpf : parseStructFields env name fl with ⟨fs, e⟩
              cases e with
              | some e => simp
              | none =>
                simp only [Option.isNone_none, if_true]
                rw [ih]
                simp [recordFields, TypeSpec.Typ, TypeSpec.Name, TypeSpec.Doc, hpf]
          | _ =>
            simpa [inspectTypeSpec.specs, recordEntries, TypeSpec.Typ, parseStruts.fn]
              using ih vars

theorem parseStruts_groups_exact (env : Env) (gs : List GenDecl) (vars : StrutsVars) :
    (gs.foldl (fun s d => inspectTypeSpec.specs (parseStruts.fn env) d.Specs s)
      vars).structs =
      vars.structs ++ (gs.flatMap fun d => recordEntries env d.Specs).map
        (fun t => ⟨t.Name, docText t.Doc, recordFields env t⟩) := by
  induction gs generalizing vars with
  | nil => simp
  | cons d ds ih =>
    rw [List.foldl_cons, ih, parseStruts_specs_exact]
    simp [List.flatMap_cons]

/-- The Records that `parseStruts` returns are those of the record entries that reach the
output, in traversal order, each with the name, the doc text and the fields of its
entry. -/
theorem parseStruts_exact (env : Env) (file : File) :
    parseStruts env file =
      Except.ok ((allRecordEntries env file).map
        (fun t => ⟨t.Name, docText t.Doc, recordFields env t⟩), none) := by
  rw [parseStruts_eq, parseStruts_groups_exact]
  simp [allRecordEntries]

theorem parseInterfaces_specs_exact (env : Env) (specs : List Spec) (vars : InterfacesVars) :
    (inspectTypeSpec.specs (parseInterfaces.fn env) specs vars).interfaces =
      vars.interfaces ++ (interfaceEntries env specs).map
        (fun t => ⟨t.Name, docText t.Doc, interfaceFunctions env t⟩) := by
  induction specs generalizing vars with
  | nil => simp [inspectTypeSpec.specs, interfaceEntries]
  | cons spec rest ih =>
    cases spec with
    | ImportSpec s => simpa [inspectTypeSpec.specs, interfaceEntries] using ih vars
    | ValueSpec s => simpa [inspectTypeSpec.specs, interfaceEntries] using ih vars
    | TypeSpec t =>
      cases t with
      | mk doc name typ =>
        cases typ with
        | none => simpa [inspectTypeSpec.specs, interfaceEntries, TypeSpec.Typ] using ih vars
        | some e =>
          cases e with
          | InterfaceType ml =>
            cases ml with
            | none =>
              simp only [inspectTypeSpec.specs, TypeSpec.Typ, parseInterfaces.fn,
                interfaceEntries]
              rw [ih]
              simp [interfaceFunctions, TypeSpec.Typ, TypeSpec.Name, TypeSpec.Doc]
            | some ml =>
              simp only [inspectTypeSpec.specs, TypeSpec.Typ, parseInterfaces.fn,
                interfaceEntries, TypeSpec.Name]
              rcases hpf : parseInterfaceFunctions env ml with ⟨fs, e⟩
              cases e with
              | some e => simp
              | none =>
                simp only [Option.isNone_none, if_true]
                rw [ih]
                simp [interfaceFunctions, TypeSpec.Typ, TypeSpec.Name, TypeSpec.Doc, hpf]
          | _ =>
            simpa [inspectTypeSpec.specs, interfaceEntries, TypeSpec.Typ, parseInterfaces.fn]
              using ih vars

theorem parseInterfaces_groups_exact (env : Env) (gs : List GenDecl) (vars : InterfacesVars) :
    (gs.foldl (fun s d => inspectTypeSpec.specs (parseInterfaces.fn env) d.Specs s)
      vars).interfaces =
      vars.interfaces ++ (gs.flatMap fun d => interfaceEntries env d.Specs).map
        (fun t => ⟨t.Name, docText t.Doc, interfaceFunctions env t⟩) := by
  induction gs generalizing vars with
  | nil => simp
  | cons d ds ih =>
    rw [List.foldl_cons, ih, parseInterfaces_specs_exact]
    simp [List.flatMap_cons]

/-- The Interfaces that `parseInterfaces` returns are those of the method-set entries that
reach the output, in traversal order, each with the name, the doc text and the functions of
its entry. -/
theorem parseInterfaces_exact (env : Env) (file : File) :
    parseInterfaces env file =
      Except.ok ((allInterfaceEntries env file).map
        (fun t => ⟨t.Name, docText t.Doc, interfaceFunctions env t⟩), none) := by
  rw [parseInterfaces_eq, parseInterfaces_groups_exact]
  simp [allInterfaceEntries]

/-! ## Claims on the extracted values and docs -/

/-- C14. For every file whose constant and variable entries all have a first name and a
first initializer, `parseValues` returns, and its Values are, over all entries in traversal
order, those of the first name and first initializer of each entry: an entry contributes at
most one Value; exactly one when its first initializer is a literal, named by the first
name, with the lower-cased token name as kind and the text of that literal (without the
delimiters for a string longer than two characters); none when it is not a literal. The
other names, the declared type and the other initializers of the entry do not occur in what
the entry contributes. -/
theorem C14_one_value_per_literal_first_pair (file : File)
    (h : file.allSpecs Spec.hasFirstPair = true) :
    (∃ values, parseValues file = Except.ok (values, none) ∧
        values = (file.groups.flatMap fun d => d.Specs.flatMap Spec.firstPairValues) ∧
        List.Forall₂ ValueSpec.yields (allLiteralEntries file) values) ∧
      (∀ doc name names typ init inits,
        Spec.firstPairValues
            (Spec.ValueSpec (ValueSpec.mk doc (name :: names) typ (init :: inits))) =
          valuesOfFirstPair doc name init ∧
        (valuesOfFirstPair doc name init).length ≤ 1) ∧
      (∀ doc name kind value,
        valuesOfFirstPair doc name (Expr.BasicLit kind value) =
          [⟨name, docText doc, ToLower kind.String,
            if ToLower kind.String = "string" ∧ value.length > 2 then innerText value
            else value⟩]) ∧
      (∀ doc name init, (∀ kind value, init ≠ Expr.BasicLit kind value) →
        valuesOfFirstPair doc name init = []) := by
  obtain ⟨values, e, _⟩ := parseValues_groups_length file.groups [] h
  have hp : parseValues file = Except.ok (values, none) := by rw [parseValues_eq, e]
  refine ⟨⟨values, hp, parseValues_exact file values none hp,
    parseValues_yields file values none hp⟩, ?_, ?_, ?_⟩
  · intro doc name names typ init inits
    refine ⟨rfl, ?_⟩
    cases init <;> simp [valuesOfFirstPair]
  · intro doc name kind value
    rfl
  · intro doc name init hinit
    cases init with
    | BasicLit kind value => exact absurd rfl (hinit kind value)
    | _ => rfl

theorem C14_one_value_per_literal_first_pair_witness :
    multiNameFile.allSpecs Spec.hasFirstPair = true ∧
      parseValues multiNameFile =
        Except.ok ([⟨"a", "", "int", "1"⟩, ⟨"e", "", "string", "s"⟩, ⟨"g", "", "char", "'k'"⟩],
          none) ∧
      (multiNameFile.groups.flatMap fun d => d.Specs.flatMap Spec.firstPairValues) =
        [⟨"a", "", "int", "1"⟩, ⟨"e", "", "string", "s"⟩, ⟨"g", "", "char", "'k'"⟩] ∧
      ∃ values, parseValues multiNameFile = Except.ok (values, none) ∧
        values = (multiNameFile.groups.flatMap fun d => d.Specs.flatMap Spec.firstPairValues) ∧
        List.Forall₂ ValueSpec.yields (allLiteralEntries multiNameFile) values :=
  ⟨by decide, by decide, by decide,
    (C14_one_value_per_literal_first_pair multiNameFile (by decide)).1⟩

/-- C15 (amended). The Kind of every captured Value is one of `string`, `int`, `float`,
`char`, `imag`: position by position, the Values are those of the entries with a literal
first initializer, each named by the first name of its entry and with the lower-cased name
of the token of the first initializer of that entry as Kind, so that an integer literal
gives `int`, a string literal `string` and an imaginary literal `imag`. -/
theorem C15_kind_is_lowercased_token (file : File) (values : List Value)
    (h : parseValues file = Except.ok (values, none)) :
    List.Forall₂
        (fun t v => ∃ kind value inits, t.Values = Expr.BasicLit kind value :: inits ∧
          some v.Name = t.Names.head? ∧ v.Kind = ToLower kind.String ∧ v.Kind ∈ valueKinds)
        (allLiteralEntries file) values ∧
      (∀ v ∈ values, v.Kind ∈ valueKinds ∧
        ∃ d ∈ file.groups, ∃ doc name names typ kind value inits,
          Spec.ValueSpec (ValueSpec.mk doc (name :: names) typ
              (Expr.BasicLit kind value :: inits)) ∈ d.Specs ∧
            v ∈ valuesOfFirstPair doc name (Expr.BasicLit kind value) ∧
            v.Kind = ToLower kind.String) ∧
      Token.INT.String = "INT" ∧ Token.FLOAT.String = "FLOAT" ∧ Token.IMAG.String = "IMAG" ∧
      Token.CHAR.String = "CHAR" ∧ Token.STRING.String = "STRING" ∧
      ToLower "INT" = "int" ∧ ToLower "FLOAT" = "float" ∧ ToLower "IMAG" = "imag" ∧
      ToLower "CHAR" = "char" ∧ ToLower "STRING" = "string" := by
  have hk : ∀ kind : Token, ToLower kind.String ∈ valueKinds := by
    intro kind
    cases kind <;> decide
  refine ⟨?_, ?_, rfl, rfl, rfl, rfl, rfl, by decide, by decide, by decide, by decide,
    by decide⟩
  · refine (parseValues_yields file values none h).imp ?_
    rintro t v ⟨doc, name, names, typ, kind, value, inits, ht, hv⟩
    subst ht hv
    exact ⟨kind, value, inits, rfl, rfl, rfl, hk kind⟩
  · intro v hv
    obtain ⟨d, hd, doc, name, names, typ, init, inits, hm, hx⟩ :=
      parseValues_mem file values none h v hv
    obtain ⟨_, _, kind, value, hi, hkind⟩ := valuesOfFirstPair_kind doc name init v hx
    subst hi
    refine ⟨?_, d, hd, doc, name, names, typ, kind, value, inits, hm, hx, hkind⟩
    rw [hkind]
    exact hk kind

theorem C15_kind_is_lowercased_token_witness :
    parseValues multiNameFile =
        Except.ok ([⟨"a", "", "int", "1"⟩, ⟨"e", "", "string", "s"⟩, ⟨"g", "", "char", "'k'"⟩],
          none) ∧
      (allLiteralEntries multiNameFile).map (fun t => (t.Names, t.Values)) =
        [ (["a", "b"], [Expr.BasicLit Token.INT "1", Expr.BasicLit Token.INT "2"]),
          (["e"], [Expr.BasicLit Token.STRING "\"s\""]),
          (["g", "h"], [Expr.BasicLit Token.CHAR "'k'", Expr.BasicLit Token.FLOAT "2.5"]) ] ∧
      List.Forall₂
        (fun (t : ValueSpec) (v : Value) =>
          ∃ kind value inits, t.Values = Expr.BasicLit kind value :: inits ∧
            some v.Name = t.Names.head? ∧ v.Kind = ToLower kind.String ∧ v.Kind ∈ valueKinds)
        (allLiteralEntries multiNameFile)
        ([⟨"a", "", "int", "1"⟩, ⟨"e", "", "string", "s"⟩, ⟨"g", "", "char", "'k'"⟩] :
          List Value) :=
  ⟨by decide, by rfl,
    (C15_kind_is_lowercased_token multiNameFile
      [⟨"a", "", "int", "1"⟩, ⟨"e", "", "string", "s"⟩, ⟨"g", "", "char", "'k'"⟩]
      (by decide)).1⟩

/-- C19. Position by position, the extracted Records are those of the record entries that
reach the output, the Interfaces those of the method-set entries and the Values those of
the entries with a literal first initializer; each extracted entity has the name of its
entry and, as Doc, the text of the doc comment of that entry, which is the empty string
when the entry has no doc comment of its own. The entries are read off the entry lists of
the declaration groups, and the doc comment of a group occurs nowhere. -/
theorem C19_doc_is_the_doc_of_the_entry (env : Env) (file : File) :
    (∃ structs, parseStruts env file = Except.ok (structs, none) ∧
        List.Forall₂
          (fun t st => st.Name = t.Name ∧ st.Doc = docText t.Doc ∧ (t.Doc = none → st.Doc = ""))
          (file.groups.flatMap fun d => recordEntries env d.Specs) structs) ∧
      (∃ interfaces, parseInterfaces env file = Except.ok (interfaces, none) ∧
        List.Forall₂
          (fun t itf =>
            itf.Name = t.Name ∧ itf.Doc = docText t.Doc ∧ (t.Doc = none → itf.Doc = ""))
          (file.groups.flatMap fun d => interfaceEntries env d.Specs) interfaces) ∧
      (∀ values, parseValues file = Except.ok (values, none) →
        List.Forall₂
          (fun t v =>
            some v.Name = t.Names.head? ∧ v.Doc = docText t.Doc ∧ (t.Doc = none → v.Doc = ""))
          (file.groups.flatMap fun d => d.Specs.filterMap literalEntry) values) := by
  refine ⟨⟨_, parseStruts_exact env file, ?_⟩, ⟨_, parseInterfaces_exact env file, ?_⟩, ?_⟩
  · rw [List.forall₂_map_right_iff]
    refine List.forall₂_same.mpr ?_
    intro t _
    refine ⟨rfl, rfl, ?_⟩
    intro h0
    show docText t.Doc = ""
    rw [h0]
    rfl
  · rw [List.forall₂_map_right_iff]
    refine List.forall₂_same.mpr ?_
    intro t _
    refine ⟨rfl, rfl, ?_⟩
    intro h0
    show docText t.Doc = ""
    rw [h0]
    rfl
  · intro values h
    refine (parseValues_yields file values none h).imp ?_
    rintro t v ⟨doc, name, names, typ, kind, value, inits, ht, hv⟩
    subst ht hv
    refine ⟨rfl, rfl, ?_⟩
    intro h0
    show docText doc = ""
    simp only [ValueSpec.Doc] at h0
    rw [h0]
    rfl

theorem C19_doc_is_the_doc_of_the_entry_witness :
    docFile.groups.map GenDecl.Doc = [some ⟨"group doc\n"⟩, some ⟨"types doc\n"⟩] ∧
      parseStruts (envOf docFile) docFile = Except.ok ([⟨"R", "R doc\n", []⟩], none) ∧
      parseInterfaces (envOf docFile) docFile = Except.ok ([⟨"I", "", []⟩], none) ∧
      parseValues docFile =
        Except.ok ([⟨"A", "", "int", "1"⟩, ⟨"B", "B doc\n", "string", "b"⟩], none) ∧
      ((docFile.groups.flatMap fun d => d.Specs.filterMap literalEntry).map
          (fun t => (t.Names, t.Doc)) =
        [(["A"], none), (["B"], some ⟨"B doc\n"⟩)]) ∧
      List.Forall₂
        (fun (t : ValueSpec) (v : Value) =>
          some v.Name = t.Names.head? ∧ v.Doc = docText t.Doc ∧ (t.Doc = none → v.Doc = ""))
        (docFile.groups.flatMap fun d => d.Specs.filterMap literalEntry)
        ([⟨"A", "", "int", "1"⟩, ⟨"B", "B doc\n", "string", "b"⟩] : List Value) :=
  ⟨by decide, by decide, by decide, by decide, by decide,
    (C19_doc_is_the_doc_of_the_entry (envOf docFile) docFile).2.2
      [⟨"A", "", "int", "1"⟩, ⟨"B", "B doc\n", "string", "b"⟩] (by decide)⟩

end astparser
